import Mathlib

/-!
Shallow embedding of the JurisFlo placeholder-to-company-data
reconciliation code (Convex backend, TypeScript) and proofs about it.

JavaScript strings are modelled as Lean `String`s; regex-based
replacements from the source are modelled by explicit character-level
functions; JavaScript objects (`Record<string, any>`) are modelled as
association lists whose assignment `obj[k] = v` replaces the value of an
existing key in place and otherwise appends the pair at the end, exactly
as JavaScript property assignment behaves with respect to key order.
-/

namespace JurisFlo

/-- White space characters recognised by JavaScript `trim` and `\s`
(the ASCII ones plus NBSP, which is all the source ever feeds them). -/
def jsIsWs (c : Char) : Bool :=
  c = ' ' ∨ c = '\t' ∨ c = '\n' ∨ c = '\r' ∨ c = '\x0b' ∨ c = '\x0c' ∨ c = ' '

/-- Lower-case ASCII letter or digit: the character class `[a-z0-9]`. -/
def isLowerAlnum (c : Char) : Bool :=
  ('a' ≤ c ∧ c ≤ 'z') ∨ ('0' ≤ c ∧ c ≤ '9')

/-- The character class `\w`, i.e. `[A-Za-z0-9_]`. -/
def isWordChar (c : Char) : Bool :=
  ('a' ≤ c ∧ c ≤ 'z') ∨ ('A' ≤ c ∧ c ≤ 'Z') ∨ ('0' ≤ c ∧ c ≤ '9') ∨ c = '_'

/-- Character-level model of JavaScript `toLowerCase` (ASCII range;
identity elsewhere, which covers every character the claims use). -/
def jsLowerChar (c : Char) : Char :=
  if 'A' ≤ c ∧ c ≤ 'Z' then Char.ofNat (c.toNat + 32) else c

/-- Character-level model of JavaScript `toUpperCase` (ASCII range). -/
def jsUpperChar (c : Char) : Char :=
  if 'a' ≤ c ∧ c ≤ 'z' then Char.ofNat (c.toNat - 32) else c

/-- Drop the trailing run of characters satisfying `p`. -/
def dropTrailing (p : Char → Bool) (l : List Char) : List Char :=
  (l.reverse.dropWhile p).reverse

/-- JavaScript `String.prototype.trim` on a character list. -/
def trimL (l : List Char) : List Char :=
  dropTrailing jsIsWs (l.dropWhile jsIsWs)

/-- JavaScript `s.trim()`. -/
def jsTrim (s : String) : String :=
  ⟨trimL s.data⟩

/-- JavaScript `s.toLowerCase()`. -/
def jsLower (s : String) : String :=
  ⟨s.data.map jsLowerChar⟩

/-- JavaScript `s.toUpperCase()`. -/
def jsUpper (s : String) : String :=
  ⟨s.data.map jsUpperChar⟩

/-- One step of `s.replace(/X+/g, r)` for the character class `p`:
a Mealy machine that copies characters not in `p` and emits `r` exactly
once for every maximal run of characters in `p`.  The flag says whether
we are currently inside such a run. -/
def collapseGo (p : Char → Bool) (r : Char) : Bool → List Char → List Char
  | _, [] => []
  | inRun, c :: cs =>
    if p c then
      if inRun then collapseGo p r true cs else r :: collapseGo p r true cs
    else
      c :: collapseGo p r false cs

/-- `s.replace(/X+/g, r)` where `X` is the character class `p`. -/
def collapseRuns (p : Char → Bool) (r : Char) (l : List Char) : List Char :=
  collapseGo p r false l

/-- `replace(/^_+|_+$/g, '')`: strip leading and trailing underscores. -/
def stripUnderscoresL (l : List Char) : List Char :=
  dropTrailing (· = '_') (l.dropWhile (· = '_'))

/-- Unicode NFKD decomposition of one character, as used by
`String.prototype.normalize('NFKD')` in `normalizeIdentifier`.  NFKD is
the identity on ASCII; for the Latin-1 accented letters that actually
occur in legal documents it splits the letter from its combining accent.
All other characters are left alone, which is conservative: they are
erased by the following `[^a-z0-9]+` replacement either way. -/
def nfkdChar (c : Char) : List Char :=
  if c.toNat < 128 then [c]
  else if c = 'à' then ['a', '̀'] else if c = 'á' then ['a', '́']
  else if c = 'â' then ['a', '̂'] else if c = 'ã' then ['a', '̃']
  else if c = 'ä' then ['a', '̈'] else if c = 'ç' then ['c', '̧']
  else if c = 'è' then ['e', '̀'] else if c = 'é' then ['e', '́']
  else if c = 'ê' then ['e', '̂'] else if c = 'ë' then ['e', '̈']
  else if c = 'ì' then ['i', '̀'] else if c = 'í' then ['i', '́']
  else if c = 'î' then ['i', '̂'] else if c = 'ï' then ['i', '̈']
  else if c = 'ñ' then ['n', '̃'] else if c = 'ò' then ['o', '̀']
  else if c = 'ó' then ['o', '́'] else if c = 'ô' then ['o', '̂']
  else if c = 'õ' then ['o', '̃'] else if c = 'ö' then ['o', '̈']
  else if c = 'ù' then ['u', '̀'] else if c = 'ú' then ['u', '́']
  else if c = 'û' then ['u', '̂'] else if c = 'ü' then ['u', '̈']
  else [c]

/-- `normalize('NFKD')` over a character list. -/
def nfkdL (l : List Char) : List Char :=
  (l.map nfkdChar).flatten

/-- `replace(/[̀-ͯ]/g, '')`: remove combining diacritics. -/
def stripCombining (l : List Char) : List Char :=
  l.filter (fun c => ¬ ('̀' ≤ c ∧ c ≤ 'ͯ'))

/-- Core of `normalizeCompanyDataKey` from `convex/company.ts`:
`input.trim().toLowerCase().replace(/[^a-z0-9]+/g, '_').replace(/^_+|_+$/g, '')`. -/
def companyKeyCore (l : List Char) : List Char :=
  stripUnderscoresL (collapseRuns (fun c => ¬ isLowerAlnum c) '_' ((trimL l).map jsLowerChar))

/-- `normalizeCompanyDataKey` from `convex/company.ts`.  The argument is
`Option String` because the TypeScript parameter is `string | null |
undefined`; `!input` is also true for the empty string. -/
def normalizeCompanyDataKey (input : Option String) : Option String :=
  match input with
  | none => none
  | some s =>
    if s = "" then none
    else
      let normalized := companyKeyCore s.data
      if normalized = [] then none else some ⟨normalized⟩

/-- `normalizeIdentifier` from `convex/parser.ts`:
`value.toLowerCase().normalize('NFKD').replace(/[̀-ͯ]/g, '')
.replace(/[^a-z0-9]+/g, '_').replace(/^_+|_+$/g, '')`. -/
def normalizeIdentifier (value : String) : String :=
  ⟨stripUnderscoresL (collapseRuns (fun c => ¬ isLowerAlnum c) '_'
      (stripCombining (nfkdL (value.data.map jsLowerChar))))⟩

/-- A JavaScript value as stored in a `Record<string, any>` company-data
map: a string, some other non-null value (numbers etc., which the code
only ever passes through), or `null`/`undefined`. -/
inductive JsValue where
  | str (s : String)
  | num (n : Int)
  | jnull
deriving DecidableEq, Repr

/-- First-match lookup: `obj[k]` on an object with unique keys. -/
def lookupFirst (k : String) : List (String × α) → Option α
  | [] => none
  | (k', v) :: rest => if k' = k then some v else lookupFirst k rest

/-- `Object.keys`-style membership test. -/
def containsKey (k : String) (m : List (String × α)) : Bool :=
  m.any (fun p => p.1 = k)

/-- JavaScript property assignment `obj[k] = v`: replace the value of an
existing key in place (a JavaScript object never holds a key twice, so
replacing the first occurrence is replacing the occurrence), otherwise
append the pair at the end. -/
def setVal : List (String × α) → String → α → List (String × α)
  | [], k, v => [(k, v)]
  | p :: rest, k, v => if p.1 = k then (k, v) :: rest else p :: setVal rest k v

/-- Run a list of assignments left to right. -/
def applyAssigns (m : List (String × α)) (assigns : List (String × α)) :
    List (String × α) :=
  assigns.foldl (fun acc p => setVal acc p.1 p.2) m

/-- The value of the last assignment to `k` in the list, if any. -/
def lastAssign (k : String) : List (String × α) → Option α
  | [] => none
  | (k', v) :: rest => match lastAssign k rest with
    | some w => some w
    | none => if k' = k then some v else none

/-- Entries appended by a run of assignments when the keys in `ks` are
already present: each new key appears at its first assignment, carrying
the value of its last assignment. -/
def newPart : List (String × α) → List String → List (String × α)
  | [], _ => []
  | (k, v) :: rest, ks =>
    if k ∈ ks then newPart rest ks
    else (k, match lastAssign k rest with
             | some w => w
             | none => v) :: newPart rest (ks ++ [k])

/-- Boolean prefix test on character lists. -/
def isPrefixL : List Char → List Char → Bool
  | [], _ => true
  | _ :: _, [] => false
  | a :: as, b :: bs => if a = b then isPrefixL as bs else false

/-- `s.indexOf(pat)`: index of the first occurrence of `pat` in `s`, or
`none` where JavaScript returns `-1`. -/
def firstIndexOf (pat : List Char) : List Char → Option Nat
  | [] => if isPrefixL pat [] then some 0 else none
  | c :: cs =>
    if isPrefixL pat (c :: cs) then some 0
    else (firstIndexOf pat cs).map (· + 1)

/-- `s.includes(sub)`. -/
def jsIncludes (s sub : String) : Bool :=
  (firstIndexOf sub.data s.data).isSome

/-- `pat` occurs in `s` at position `i`. -/
def occursAt (s pat : List Char) (i : Nat) : Prop :=
  pat <+: s.drop i

/-- One extracted placeholder field, as produced by the parser
(`ParsedField` in `convex/parser.ts`) and stored in `document.data`.
`key` and `placeholderPattern` are optional in the source type. -/
structure ParsedField where
  label : String
  description : String
  key : Option String := none
  placeholderPattern : Option String := none
  value : Option String := none
deriving DecidableEq, Repr

/-- The company-level keyword list of `isCompanyLevelField`
(`convex/company.ts`). -/
def companyKeywords : List String :=
  ["company name", "company address", "company registration",
   "registration number", "ein", "tax id", "tax identification",
   "total shares", "total number of shares", "authorized shares",
   "authorized capital", "state of incorporation", "incorporation state",
   "company type", "entity type", "legal entity", "corporate address",
   "registered address", "principal address", "business address",
   "company phone", "company email", "fiscal year", "jurisdiction"]

/-- The document-specific keyword list of `isCompanyLevelField`
(`convex/company.ts`). -/
def documentKeywords : List String :=
  ["contract date", "agreement date", "signing date", "effective date",
   "document date", "execution date", "party name", "signatory", "signer",
   "witness", "document title", "agreement title", "contract title",
   "term", "clause", "section", "paragraph", "exhibit", "schedule", "annex"]

/-- `isCompanyLevelField` from `convex/company.ts`.  The two keyword
loops with early `return` are the `List.any` tests. -/
def isCompanyLevelField (label description : String) : Bool :=
  let normalizedLabel := jsTrim (jsLower label)
  let normalizedDesc := jsTrim (jsLower description)
  let combined := normalizedLabel ++ " " ++ normalizedDesc
  if documentKeywords.any (fun keyword => jsIncludes combined keyword) then false
  else if companyKeywords.any (fun keyword => jsIncludes combined keyword) then true
  else if jsIncludes normalizedLabel "company" ∧ ¬ jsIncludes normalizedLabel "party" then
    true
  else if (jsIncludes normalizedLabel "share" ∨ jsIncludes normalizedLabel "capital")
      ∧ ¬ jsIncludes normalizedLabel "agreement"
      ∧ ¬ jsIncludes normalizedLabel "contract" then
    true
  else false

/-- `sanitizeCompanyData` from `convex/company.ts`: canonicalize each
key, skip blank keys, `null`/`undefined` values and blank strings, trim
string values, and build the result by object assignment. -/
def sanitizeCompanyData (data : List (String × JsValue)) : List (String × JsValue) :=
  data.foldl
    (fun sanitized p =>
      match normalizeCompanyDataKey (some p.1) with
      | none => sanitized
      | some canonicalKey =>
        match p.2 with
        | JsValue.jnull => sanitized
        | JsValue.num n => setVal sanitized canonicalKey (JsValue.num n)
        | JsValue.str s =>
          let cleanedValue := jsTrim s
          if cleanedValue = "" then sanitized
          else setVal sanitized canonicalKey (JsValue.str cleanedValue))
    []

/-- The body of the inner `for (const item of document.data)` loop of
`internalAggregateCompanyDataFromDocuments` (`convex/company.ts`). -/
def aggregateItemStep (aggregatedData : List (String × JsValue)) (item : ParsedField) :
    List (String × JsValue) :=
  match item.value.map jsTrim with
  | none => aggregatedData
  | some rawValue =>
    if rawValue = "" then aggregatedData
    else if isCompanyLevelField item.label item.description then
      let preferredKey := normalizeCompanyDataKey item.key
      let fallbackKey := normalizeCompanyDataKey (some item.label)
      match (match preferredKey with
             | some k => some k
             | none => fallbackKey) with
      | none => aggregatedData
      | some canonicalKey => setVal aggregatedData canonicalKey (JsValue.str rawValue)
    else aggregatedData

/-- `internalAggregateCompanyDataFromDocuments` from `convex/company.ts`.
The documents are given as their `data` fields, in creation order (the
order the `by_company` index yields); the function starts from the
sanitized stored company data and folds every document item over it. -/
def internalAggregateCompanyDataFromDocuments
    (companyData : List (String × JsValue))
    (documents : List (Option (List ParsedField))) : List (String × JsValue) :=
  documents.foldl
    (fun aggregatedData docData =>
      match docData with
      | none => aggregatedData
      | some items => items.foldl aggregateItemStep aggregatedData)
    (sanitizeCompanyData companyData)

/-- `internalUpdateCompanyData` from `convex/company.ts`, as the map it
stores into `company.data`: the sanitized argument. -/
def internalUpdateCompanyData (data : List (String × JsValue)) :
    List (String × JsValue) :=
  sanitizeCompanyData data

/-- The assignment one document item contributes to the aggregate, if
its value is non-blank, it is company-level and it has a canonical key. -/
def itemContribution (item : ParsedField) : Option (String × JsValue) :=
  match item.value.map jsTrim with
  | none => none
  | some rawValue =>
    if rawValue = "" then none
    else if isCompanyLevelField item.label item.description then
      match (match normalizeCompanyDataKey item.key with
             | some k => some k
             | none => normalizeCompanyDataKey (some item.label)) with
      | none => none
      | some canonicalKey => some (canonicalKey, JsValue.str rawValue)
    else none

/-- All assignments contributed by a document list, in processing order. -/
def docContributions (documents : List (Option (List ParsedField))) :
    List (String × JsValue) :=
  (documents.map (fun docData => (docData.getD []).filterMap itemContribution)).flatten

/-- `extractContextFromRawText` from `convex/parser.ts`: find the first
occurrence of the lowercased trimmed snippet in the (lowercased) text,
slice the original text with a padding window of
`max 40 (trimmed length)` on both sides (`Nat` subtraction is the
source's `Math.max(0, index - padding)`), collapse whitespace runs to
single spaces and trim. -/
def extractContextFromRawText (rawText normalizedText snippet : String) : Option String :=
  let trimmedSnippet := jsTrim snippet
  if trimmedSnippet = "" then none
  else
    match firstIndexOf (jsLower trimmedSnippet).data normalizedText.data with
    | none => none
    | some index =>
      let padding := max 40 trimmedSnippet.data.length
      let start := index - padding
      let stop := min rawText.data.length (index + trimmedSnippet.data.length + padding)
      some ⟨trimL (collapseRuns jsIsWs ' ' ((rawText.data.take stop).drop start))⟩

/-- The entry `sanitizeCompanyData` produces from one raw entry. -/
def sanitizeEntry (p : String × JsValue) : Option (String × JsValue) :=
  match normalizeCompanyDataKey (some p.1) with
  | none => none
  | some canonicalKey =>
    match p.2 with
    | JsValue.jnull => none
    | JsValue.num n => some (canonicalKey, JsValue.num n)
    | JsValue.str s =>
      let cleanedValue := jsTrim s
      if cleanedValue = "" then none
      else some (canonicalKey, JsValue.str cleanedValue)

/-- The run flag of `collapseGo` after processing a list: inside a run
exactly when the last character seen satisfied `p`. -/
def runState (p : Char → Bool) : Bool → List Char → Bool
  | b, [] => b
  | _, c :: cs => runState p (p c) cs

/-- No two adjacent occurrences of the character `r`. -/
def noAdjRun (r : Char) : List Char → Bool
  | [] => true
  | [_] => true
  | c :: d :: rest => if c = r ∧ d = r then false else noAdjRun r (d :: rest)

/-- Replace an entry's value by the last assignment to its key, when one
exists. -/
def overrideWith (A : List (String × α)) (p : String × α) : String × α :=
  (p.1, (lastAssign p.1 A).getD p.2)

/-- A company-data entry in the shape `sanitizeCompanyData` produces:
the key is canonical (a fixed point of `normalizeCompanyDataKey`) and
the value is non-null and, when a string, trimmed and non-empty. -/
def sanitizedEntry (p : String × JsValue) : Prop :=
  normalizeCompanyDataKey (some p.1) = some p.1 ∧
    match p.2 with
    | JsValue.str s => jsTrim s = s ∧ s ≠ ""
    | JsValue.num _ => True
    | JsValue.jnull => False

/-- The append phase of `updateDocumentData` (`convex/document.ts`):
push each new item whose label is not yet in `updatedLabels`, recording
pushed labels as it goes. -/
def appendNewItems (updatedLabels : List String) : List ParsedField → List ParsedField
  | [] => []
  | newItem :: rest =>
    if newItem.label ∈ updatedLabels then appendNewItems updatedLabels rest
    else newItem :: appendNewItems (newItem.label :: updatedLabels) rest

/-- The merge of `updateDocumentData` (`convex/document.ts`) for a
non-empty update array: `newDataMap` is a JavaScript `Map` keyed by
label (later duplicates win, hence `lastAssign`); existing items are
updated in place, and the labels that matched become the initial
`updatedLabels` set for the append phase. -/
def mergeDocumentData (existingData newData : List ParsedField) : List ParsedField :=
  let newDataMap := newData.map (fun item => (item.label, item))
  let mergedData := existingData.map (fun item =>
    match lastAssign item.label newDataMap with
    | some updatedItem => updatedItem
    | none => item)
  let updatedLabels := existingData.filterMap (fun item =>
    if (lastAssign item.label newDataMap).isSome then some item.label else none)
  mergedData ++ appendNewItems updatedLabels newData

/-- `updateDocumentData` from `convex/document.ts`, as the data array it
stores: absent or empty update data leaves the stored array unchanged. -/
def updateDocumentData (existingData : List ParsedField)
    (newData : Option (List ParsedField)) : List ParsedField :=
  match newData with
  | none => existingData
  | some nd => if nd = [] then existingData else mergeDocumentData existingData nd

/-- `annotateDescriptionWithAutoFilled` from `convex/parser.ts`. -/
def annotateDescriptionWithAutoFilled (description : String) : String :=
  if description = "" then "Auto-filled from company data"
  else if jsIncludes (jsLower description) "auto-filled from company data" then description
  else description ++ " (Auto-filled from company data)"

/-- The `normalizedCompanyValues` map of `autoFillFieldsFromCompanyData`
(`convex/parser.ts`): string entries with a non-blank trimmed value,
keyed by normalized identifier (a JavaScript `Map`, so later collisions
overwrite in place). -/
def buildNormalizedCompanyValues (companyData : List (String × JsValue)) :
    List (String × String) :=
  companyData.foldl
    (fun m p =>
      match p.2 with
      | JsValue.str rawValue =>
        let trimmedValue := jsTrim rawValue
        if trimmedValue = "" then m
        else
          let normalizedKey := normalizeIdentifier p.1
          if normalizedKey = "" then m else setVal m normalizedKey trimmedValue
      | _ => m)
    []

/-- The `candidateKeys` array of `autoFillFieldsFromCompanyData`:
normalized key (when the key is truthy), normalized label, normalized
description (when the description is truthy). -/
def candidateKeys (field : ParsedField) : List (Option String) :=
  [match field.key with
   | some k => if k = "" then none else some (normalizeIdentifier k)
   | none => none,
   some (normalizeIdentifier field.label),
   if field.description = "" then none else some (normalizeIdentifier field.description)]

/-- The candidate loop of `autoFillFieldsFromCompanyData`: skip falsy
candidates, return the first truthy company value found. -/
def firstCompanyValue (m : List (String × String)) : List (Option String) → Option String
  | [] => none
  | c :: rest =>
    match c with
    | none => firstCompanyValue m rest
    | some candidate =>
      if candidate = "" then firstCompanyValue m rest
      else
        match lookupFirst candidate m with
        | some companyValue =>
          if companyValue = "" then firstCompanyValue m rest else some companyValue
        | none => firstCompanyValue m rest

/-- The `field.value && field.value.trim() !== ''` test. -/
def filledCheck : Option String → Bool
  | none => false
  | some s => if s = "" then false else if jsTrim s = "" then false else true

/-- The per-field body of `autoFillFieldsFromCompanyData`. -/
def autoFillField (m : List (String × String)) (field : ParsedField) : ParsedField :=
  if filledCheck field.value then field
  else
    match firstCompanyValue m (candidateKeys field) with
    | some companyValue =>
      { field with
        value := some companyValue,
        description := annotateDescriptionWithAutoFilled field.description }
    | none => field

/-- `autoFillFieldsFromCompanyData` from `convex/parser.ts`. -/
def autoFillFieldsFromCompanyData (fields : List ParsedField)
    (companyData : List (String × JsValue)) : List ParsedField :=
  fields.map (autoFillField (buildNormalizedCompanyValues companyData))

/-- `toTitleCase` from `convex/parser.ts`: `replace(/\w\S*/g, ...)`.
Each match starts at a word character and greedily takes the following
non-space characters; the first character is uppercased, the rest
lowercased. -/
def titleGo : List Char → List Char
  | [] => []
  | c :: cs =>
    if isWordChar c then
      jsUpperChar c ::
        ((cs.takeWhile (fun d => ¬ jsIsWs d)).map jsLowerChar ++
          titleGo (cs.drop (cs.takeWhile (fun d => ¬ jsIsWs d)).length))
    else c :: titleGo cs
termination_by l => l.length
decreasing_by
  · simp only [List.length_cons, List.length_drop]
    omega
  · simp only [List.length_cons]
    omega

/-- `toTitleCase` on strings. -/
def toTitleCase (s : String) : String :=
  ⟨titleGo s.data⟩

/-- `Set.add`: JavaScript `Set` keeps insertion order and ignores
duplicates. -/
def addCandidate (l : List String) (s : String) : List String :=
  if s ∈ l then l else l ++ [s]

/-- The wrapper shapes of `buildLabelTokenCandidates`
(`convex/parser.ts`). -/
def wrappers : List (String → String) :=
  [fun value => "[" ++ value ++ "]",
   fun value => "[[" ++ value ++ "]]",
   fun value => "\x7b\x7b" ++ value ++ "\x7d\x7d",
   fun value => "\x7b" ++ value ++ "\x7d",
   fun value => value ++ ":_____",
   fun value => value ++ " _____",
   fun value => "_____ " ++ value]

/-- `buildLabelTokenCandidates` from `convex/parser.ts`: candidate base
strings from the label (trimmed, and whitespace runs replaced by `_`)
and the key (trimmed, and underscores replaced by spaces), each wrapped
in every wrapper shape in four capitalisations, all lowercased. -/
def buildLabelTokenCandidates (label : String) (key : Option String) : List String :=
  let normalizedLabel := jsTrim label
  let c1 : List String :=
    if normalizedLabel = "" then []
    else
      addCandidate (addCandidate [] normalizedLabel)
        ⟨collapseRuns jsIsWs '_' normalizedLabel.data⟩
  let c2 : List String :=
    match key with
    | some k =>
      if k = "" then c1
      else
        addCandidate (addCandidate c1 (jsTrim k))
          ⟨k.data.map (fun c => if c = '_' then ' ' else c)⟩
    | none => c1
  c2.foldl
    (fun tokens candidate =>
      let trimmed := jsTrim candidate
      if trimmed = "" then tokens
      else
        wrappers.foldl
          (fun acc wrapper =>
            acc ++ [jsLower (wrapper trimmed),
                    jsLower (wrapper (jsUpper trimmed)),
                    jsLower (wrapper (jsLower trimmed)),
                    jsLower (wrapper (toTitleCase trimmed))])
          tokens)
    []

/-- The token loop of `findPlaceholderContextByLabel`: on the first
token found in the (lowercased) text, return the cleaned padded context
slice and the raw placeholder token at the match. -/
def findTokenLoop (rawText normalizedText : String) :
    List String → Option (String × String)
  | [] => none
  | token :: rest =>
    match firstIndexOf token.data normalizedText.data with
    | some index =>
      some (⟨trimL (collapseRuns jsIsWs ' '
          ((rawText.data.take (min rawText.data.length
            (index + token.data.length + max 40 token.data.length))).drop
            (index - max 40 token.data.length)))⟩,
        ⟨(rawText.data.take (index + token.data.length)).drop index⟩)
    | none => findTokenLoop rawText normalizedText rest

/-- `findPlaceholderContextByLabel` from `convex/parser.ts`. -/
def findPlaceholderContextByLabel (rawText normalizedText : String)
    (label : String) (key : Option String) : Option (String × String) :=
  findTokenLoop rawText normalizedText (buildLabelTokenCandidates label key)

/-- JavaScript truthiness of an optional string. -/
def jsTruthyOptStr : Option String → Bool
  | none => false
  | some s => if s = "" then false else true

/-- The per-field body of `enrichFieldsWithDocumentContext`
(`convex/parser.ts`).  The derived context itself is dropped by the
source (it never appears in the returned object); its only observable
effect is the gate deciding whether the label-based lookup runs and may
set a missing `placeholderPattern` from the matched token. -/
def enrichField (rawText normalizedText : String) (field : ParsedField) : ParsedField :=
  let normalizedPattern : Option String := field.placeholderPattern.map jsTrim
  let derivedContext0 : Option String :=
    match normalizedPattern with
    | some p =>
      if p = "" then none
      else
        match extractContextFromRawText rawText normalizedText p with
        | some context => if context = "" then none else some context
        | none => none
    | none => none
  let pattern1 : Option String :=
    if derivedContext0 = none then
      match findPlaceholderContextByLabel rawText normalizedText field.label field.key with
      | some (_, placeholderToken) =>
        if ¬ jsTruthyOptStr normalizedPattern = true ∧ placeholderToken ≠ ""
        then some placeholderToken
        else field.placeholderPattern
      | none => field.placeholderPattern
    else field.placeholderPattern
  { field with
    placeholderPattern := pattern1.map jsTrim,
    value := some (field.value.getD "") }

/-- `enrichFieldsWithDocumentContext` from `convex/parser.ts`. -/
def enrichFieldsWithDocumentContext (rawText : String) (fields : List ParsedField) :
    List ParsedField :=
  fields.map (enrichField rawText (jsLower rawText))

/-- The five status literals declared in `convex/schema.ts` for
`document.status`. -/
inductive DocStatus where
  | uploaded
  | parsing
  | review
  | completed
  | error
deriving DecidableEq, Repr

/-- The document fields touched by the parsing action, mirroring the
`document` table of `convex/schema.ts`. -/
structure DocState where
  title : Option String := none
  data : Option (List ParsedField) := none
  status : Option DocStatus := none
  errorMessage : Option String := none
  threadId : Option String := none
deriving DecidableEq, Repr

/-- Outcome of the `thread.generateObject` call in
`extractFieldsFromDocument`: it throws, or returns a parsed object with
a title, the placeholder data and an optional model-reported error. -/
inductive GenObjectOutcome where
  | throws
  | ok (title : String) (data : List ParsedField) (errorMessage : Option String)

/-- Outcome of the `thread.generateText` call. -/
inductive GenTextOutcome where
  | throws
  | ok

/-- `extractFieldsFromDocument` from `convex/parser.ts`, as a function
from the document state and the outcomes of the external calls to the
final document state.  `companyQuery` is `none` when the document has no
`companyId`, `some none` when the aggregation query throws (caught and
only logged), and `some (some m)` when it returns the company map.
Note the source's second `catch` block, unlike the first, has no early
`return`, so the unconditional final status update still runs after it. -/
def extractFieldsFromDocument (doc : DocState) (rawText threadId : String)
    (genObject : GenObjectOutcome)
    (companyQuery : Option (Option (List (String × JsValue))))
    (genText : GenTextOutcome) : DocState :=
  let d0 := { doc with status := some DocStatus.parsing }
  let d1 := { d0 with threadId := some threadId }
  match genObject with
  | GenObjectOutcome.throws =>
    { d1 with
      errorMessage := some "Failed to parse document, please try again.",
      status := some DocStatus.error }
  | GenObjectOutcome.ok title data errorMessage =>
    if jsTruthyOptStr errorMessage then
      { d1 with errorMessage := errorMessage, status := some DocStatus.error }
    else
      let d2 := { d1 with title := some title }
      let enrichedData := enrichFieldsWithDocumentContext rawText data
      let enrichedData2 :=
        match companyQuery with
        | none => enrichedData
        | some none => enrichedData
        | some (some companyData) => autoFillFieldsFromCompanyData enrichedData companyData
      let d3 := { d2 with
        data := some (updateDocumentData (d2.data.getD []) (some enrichedData2)) }
      let d4 :=
        match genText with
        | GenTextOutcome.throws =>
          { d3 with
            errorMessage := some "Failed to generate initial response, please try again.",
            status := some DocStatus.error }
        | GenTextOutcome.ok => d3
      { d4 with status := some DocStatus.review }

/-! ## Theorems -/

example : normalizeIdentifier "  Company Name:  " = "company_name" := by decide

example : normalizeCompanyDataKey (some " My-Key! ") = some "my_key" := by decide

example : normalizeCompanyDataKey (some " ?! ") = none := by decide

example : normalizeIdentifier "é" = "e" := by decide

example : normalizeCompanyDataKey (some "é") = none := by decide

/-! ## JavaScript objects as association lists -/

theorem lookupFirst_setVal (m : List (String × α)) (k q : String) (v : α) :
    lookupFirst q (setVal m k v) = if q = k then some v else lookupFirst q m := by
  induction m with
  | nil =>
    simp only [setVal, lookupFirst]
    by_cases h : q = k
    · simp [h]
    · rw [if_neg (fun h' : k = q => h h'.symm), if_neg h]
  | cons p rest ih =>
    obtain ⟨a, b⟩ := p
    by_cases hp : a = k
    · simp only [setVal, hp, if_true, lookupFirst]
      by_cases hq : q = k
      · simp [hq]
      · rw [if_neg (fun h' : k = q => hq h'.symm), if_neg hq,
          if_neg (fun h' : k = q => hq h'.symm)]
    · simp only [setVal, hp, if_false, lookupFirst]
      by_cases hpq : a = q
      · rw [if_pos hpq, if_neg (fun h' : q = k => hp (hpq.trans h')), if_pos hpq]
      · rw [if_neg hpq, ih]
        by_cases hq : q = k
        · simp [hq]
        · rw [if_neg hq, if_neg hq, if_neg hpq]

theorem applyAssigns_cons (m : List (String × α)) (p : String × α)
    (A : List (String × α)) :
    applyAssigns m (p :: A) = applyAssigns (setVal m p.1 p.2) A :=
  rfl

theorem applyAssigns_append (m A B : List (String × α)) :
    applyAssigns m (A ++ B) = applyAssigns (applyAssigns m A) B :=
  List.foldl_append ..

/-- The value found in the object after a run of assignments is the last
assignment to that key, falling back to the original object. -/
theorem lookupFirst_applyAssigns (A : List (String × α)) (m : List (String × α))
    (q : String) :
    lookupFirst q (applyAssigns m A) =
      match lastAssign q A with
      | some w => some w
      | none => lookupFirst q m := by
  induction A generalizing m with
  | nil => rfl
  | cons p A' ih =>
    obtain ⟨k, v⟩ := p
    rw [applyAssigns_cons, ih, lastAssign]
    cases lastAssign q A' with
    | some w => rfl
    | none =>
      simp only [lookupFirst_setVal]
      by_cases h : q = k
      · simp [h]
      · rw [if_neg h, if_neg (fun h' : k = q => h h'.symm)]

/-! ## Substring search (JavaScript `indexOf` / `includes`) -/

theorem isPrefixL_iff (pat s : List Char) : isPrefixL pat s = true ↔ pat <+: s := by
  induction pat generalizing s with
  | nil => simp [isPrefixL]
  | cons a as ih =>
    cases s with
    | nil => simp [isPrefixL]
    | cons b bs =>
      by_cases h : a = b
      · subst h
        simp [isPrefixL, List.cons_prefix_cons, ih]
      · simp [isPrefixL, h, List.cons_prefix_cons]

theorem firstIndexOf_some (pat s : List Char) (i : Nat)
    (h : firstIndexOf pat s = some i) :
    occursAt s pat i ∧ ∀ j, j < i → ¬ occursAt s pat j := by
  induction s generalizing i with
  | nil =>
    unfold firstIndexOf at h
    split at h
    · rename_i hp
      obtain rfl : (0 : Nat) = i := Option.some.inj h
      exact ⟨(isPrefixL_iff ..).mp hp, fun j hj => absurd hj (Nat.not_lt_zero j)⟩
    · exact absurd h (by simp)
  | cons c cs ih =>
    unfold firstIndexOf at h
    split at h
    · rename_i hp
      obtain rfl : (0 : Nat) = i := Option.some.inj h
      exact ⟨(isPrefixL_iff ..).mp hp, fun j hj => absurd hj (Nat.not_lt_zero j)⟩
    · rename_i hp
      cases hfi : firstIndexOf pat cs with
      | none => rw [hfi] at h; exact absurd h (by simp)
      | some j =>
        rw [hfi] at h
        obtain rfl : j + 1 = i := Option.some.inj h
        obtain ⟨hocc, hmin⟩ := ih j hfi
        refine ⟨hocc, fun j' hj' => ?_⟩
        cases j' with
        | zero =>
          intro hc
          exact hp ((isPrefixL_iff ..).mpr hc)
        | succ j'' =>
          exact hmin j'' (Nat.lt_of_succ_lt_succ hj')

theorem firstIndexOf_none (pat s : List Char)
    (h : firstIndexOf pat s = none) : ∀ j, ¬ occursAt s pat j := by
  induction s with
  | nil =>
    unfold firstIndexOf at h
    split at h
    · exact absurd h (by simp)
    · rename_i hp
      intro j hc
      rw [occursAt, List.drop_nil] at hc
      obtain rfl : pat = [] := List.prefix_nil.mp hc
      exact hp rfl
  | cons c cs ih =>
    unfold firstIndexOf at h
    split at h
    · exact absurd h (by simp)
    · rename_i hp
      cases hfi : firstIndexOf pat cs with
      | some j => rw [hfi] at h; exact absurd h (by simp)
      | none =>
        intro j hc
        cases j with
        | zero => exact hp ((isPrefixL_iff ..).mpr hc)
        | succ j' => exact ih hfi j' hc

theorem firstIndexOf_eq_some (pat s : List Char) (i : Nat)
    (hocc : occursAt s pat i) (hmin : ∀ j, j < i → ¬ occursAt s pat j) :
    firstIndexOf pat s = some i := by
  cases hfi : firstIndexOf pat s with
  | none => exact absurd hocc (firstIndexOf_none pat s hfi i)
  | some i' =>
    obtain ⟨hocc', hmin'⟩ := firstIndexOf_some pat s i' hfi
    rcases Nat.lt_trichotomy i i' with hlt | heq | hgt
    · exact absurd hocc (hmin' i hlt)
    · rw [heq]
    · exact absurd hocc' (hmin i' hgt)

theorem occursAt_iff_isSome (pat s : List Char) :
    (firstIndexOf pat s).isSome = true ↔ pat <:+: s := by
  constructor
  · intro h
    cases hfi : firstIndexOf pat s with
    | none => rw [hfi] at h; simp at h
    | some i =>
      have hocc := (firstIndexOf_some pat s i hfi).1
      exact hocc.isInfix.trans (List.drop_suffix i s).isInfix
  · rintro ⟨t, u, rfl⟩
    cases hfi : firstIndexOf pat (t ++ pat ++ u) with
    | some i => simp
    | none =>
      exfalso
      refine firstIndexOf_none pat _ hfi t.length ?_
      unfold occursAt
      rw [List.append_assoc, List.drop_left]
      exact List.prefix_append ..

/-- A fold that conditionally assigns one entry per element is a run of
the assignments the elements produce. -/
theorem foldl_optstep (f : β → Option (String × α))
    (g : List (String × α) → β → List (String × α))
    (hg : ∀ acc x, g acc x = (f x).elim acc (fun p => setVal acc p.1 p.2))
    (l : List β) (m : List (String × α)) :
    l.foldl g m = applyAssigns m (l.filterMap f) := by
  induction l generalizing m with
  | nil => rfl
  | cons x xs ih =>
    rw [List.foldl_cons, hg, List.filterMap_cons]
    cases f x with
    | none => exact ih m
    | some p => rw [applyAssigns_cons]; exact ih (setVal m p.1 p.2)

theorem aggregateItemStep_eq (m : List (String × JsValue)) (item : ParsedField) :
    aggregateItemStep m item =
      (itemContribution item).elim m (fun p => setVal m p.1 p.2) := by
  unfold aggregateItemStep itemContribution
  cases item.value.map jsTrim with
  | none => rfl
  | some rawValue =>
    by_cases h1 : rawValue = ""
    · simp [h1]
    · by_cases h2 : isCompanyLevelField item.label item.description
      · simp only [h1, if_false, h2, if_true]
        cases hk : (match normalizeCompanyDataKey item.key with
                    | some k => some k
                    | none => normalizeCompanyDataKey (some item.label)) with
        | none => simp [hk]
        | some canonicalKey => simp [hk]
      · simp [h1, h2]

theorem internalAggregate_eq_applyAssigns (companyData : List (String × JsValue))
    (documents : List (Option (List ParsedField))) :
    internalAggregateCompanyDataFromDocuments companyData documents
      = applyAssigns (sanitizeCompanyData companyData) (docContributions documents) := by
  unfold internalAggregateCompanyDataFromDocuments docContributions
  generalize sanitizeCompanyData companyData = m
  induction documents generalizing m with
  | nil => rfl
  | cons d ds ih =>
    simp only [List.foldl_cons, List.map_cons, List.flatten_cons]
    rw [applyAssigns_append, ← ih]
    congr 1
    cases d with
    | none => rfl
    | some items =>
      simp only [Option.getD_some]
      exact foldl_optstep itemContribution aggregateItemStep aggregateItemStep_eq items m

/-- `sanitizeCompanyData` is the run of the clean entries over the empty
object. -/
theorem sanitizeCompanyData_eq_applyAssigns (data : List (String × JsValue)) :
    sanitizeCompanyData data = applyAssigns [] (data.filterMap sanitizeEntry) := by
  refine foldl_optstep sanitizeEntry _ (fun acc p => ?_) data []
  show (match normalizeCompanyDataKey (some p.1) with
        | none => acc
        | some canonicalKey =>
          match p.2 with
          | JsValue.jnull => acc
          | JsValue.num n => setVal acc canonicalKey (JsValue.num n)
          | JsValue.str s =>
            let cleanedValue := jsTrim s
            if cleanedValue = "" then acc
            else setVal acc canonicalKey (JsValue.str cleanedValue)) = _
  unfold sanitizeEntry
  cases normalizeCompanyDataKey (some p.1) with
  | none => rfl
  | some canonicalKey =>
    cases p.2 with
    | jnull => rfl
    | num n => rfl
    | str s =>
      by_cases h : jsTrim s = "" <;> simp [h]

/-- Claim C1: `internalAggregateCompanyDataFromDocuments` starts from the
company's stored data map and writes every non-blank, company-level
document field under its canonical key deterministically: equal company
states and document lists give equal results, and the value found under
any canonical key is the one of the last contributing document item in
processing order, falling back to the sanitized stored company data when
no document contributes that key. -/
theorem claim_C1_aggregate_precedence :
    (∀ (c₁ c₂ : List (String × JsValue)) (d₁ d₂ : List (Option (List ParsedField))),
        c₁ = c₂ → d₁ = d₂ →
        internalAggregateCompanyDataFromDocuments c₁ d₁ =
          internalAggregateCompanyDataFromDocuments c₂ d₂)
    ∧ (∀ (companyData : List (String × JsValue))
        (documents : List (Option (List ParsedField))) (k : String),
        lookupFirst k (internalAggregateCompanyDataFromDocuments companyData documents) =
          match lastAssign k (docContributions documents) with
          | some w => some w
          | none => lookupFirst k (sanitizeCompanyData companyData)) := by
  constructor
  · intro c₁ c₂ d₁ d₂ hc hd
    rw [hc, hd]
  · intro companyData documents k
    rw [internalAggregate_eq_applyAssigns, lookupFirst_applyAssigns]
    cases lastAssign k (docContributions documents) <;> rfl

/-- Witness for C1 at a concrete company and two documents that both
contribute the canonical key `company_name`: the later document wins. -/
theorem claim_C1_aggregate_precedence_witness :
    internalAggregateCompanyDataFromDocuments
        [("Company Name", JsValue.str " Acme Corp ")]
        [some [{ label := "Company Name", description := "Registered name of the company",
                 key := some "company_name", value := some "Acme Corporation" }],
         some [{ label := "Company Name", description := "Name of the company",
                 value := some " Acme Corp 2 " }]] =
      internalAggregateCompanyDataFromDocuments
        [("Company Name", JsValue.str " Acme Corp ")]
        [some [{ label := "Company Name", description := "Registered name of the company",
                 key := some "company_name", value := some "Acme Corporation" }],
         some [{ label := "Company Name", description := "Name of the company",
                 value := some " Acme Corp 2 " }]]
    ∧ lookupFirst "company_name"
        (internalAggregateCompanyDataFromDocuments
          [("Company Name", JsValue.str " Acme Corp ")]
          [some [{ label := "Company Name", description := "Registered name of the company",
                   key := some "company_name", value := some "Acme Corporation" }],
           some [{ label := "Company Name", description := "Name of the company",
                   value := some " Acme Corp 2 " }]]) = some (JsValue.str "Acme Corp 2") := by
  refine ⟨claim_C1_aggregate_precedence.1 _ _ _ _ rfl rfl, ?_⟩
  rw [claim_C1_aggregate_precedence.2]
  decide

theorem jsIncludes_iff (s sub : String) : jsIncludes s sub = true ↔ sub.data <:+: s.data :=
  occursAt_iff_isSome sub.data s.data

/-- Claim C4: `isCompanyLevelField` returns `false` whenever the
lowercased, trimmed concatenation of label and description contains a
document-specific keyword, even if a company-level keyword also occurs;
otherwise it returns `true` exactly when a company-level keyword occurs
in the combined text, or the label contains `company` without `party`,
or the label contains `share` or `capital` without `agreement` or
`contract`; in every remaining case it returns `false`. -/
theorem claim_C4_isCompanyLevelField_characterization (label description : String) :
    isCompanyLevelField label description = true ↔
      (¬ ∃ kw ∈ documentKeywords,
          kw.data <:+: (jsTrim (jsLower label) ++ " " ++ jsTrim (jsLower description)).data)
      ∧ ((∃ kw ∈ companyKeywords,
            kw.data <:+: (jsTrim (jsLower label) ++ " " ++ jsTrim (jsLower description)).data)
         ∨ ("company".data <:+: (jsTrim (jsLower label)).data
              ∧ ¬ "party".data <:+: (jsTrim (jsLower label)).data)
         ∨ (("share".data <:+: (jsTrim (jsLower label)).data
               ∨ "capital".data <:+: (jsTrim (jsLower label)).data)
            ∧ ¬ "agreement".data <:+: (jsTrim (jsLower label)).data
            ∧ ¬ "contract".data <:+: (jsTrim (jsLower label)).data)) := by
  simp only [isCompanyLevelField]
  split_ifs with h1 h2 h3 h4
  · simp only [List.any_eq_true] at h1
    obtain ⟨kw, hkw, hinc⟩ := h1
    simp only [Bool.false_eq_true, false_iff, not_and]
    intro hno
    exact (hno ⟨kw, hkw, (jsIncludes_iff _ _).mp hinc⟩).elim
  · simp only [List.any_eq_true] at h1 h2
    obtain ⟨kw, hkw, hinc⟩ := h2
    simp only [true_iff]
    refine ⟨fun ⟨kw', hkw', hinf'⟩ => h1 ⟨kw', hkw', (jsIncludes_iff _ _).mpr hinf'⟩, ?_⟩
    exact Or.inl ⟨kw, hkw, (jsIncludes_iff _ _).mp hinc⟩
  · simp only [List.any_eq_true] at h1
    simp only [true_iff]
    refine ⟨fun ⟨kw', hkw', hinf'⟩ => h1 ⟨kw', hkw', (jsIncludes_iff _ _).mpr hinf'⟩, ?_⟩
    exact Or.inr (Or.inl ⟨(jsIncludes_iff _ _).mp h3.1,
      fun hp => h3.2 ((jsIncludes_iff _ _).mpr hp)⟩)
  · simp only [List.any_eq_true] at h1
    simp only [true_iff]
    refine ⟨fun ⟨kw', hkw', hinf'⟩ => h1 ⟨kw', hkw', (jsIncludes_iff _ _).mpr hinf'⟩, ?_⟩
    refine Or.inr (Or.inr ⟨?_, fun ha => h4.2.1 ((jsIncludes_iff _ _).mpr ha),
      fun hc => h4.2.2 ((jsIncludes_iff _ _).mpr hc)⟩)
    rcases h4.1 with hs | hc
    · exact Or.inl ((jsIncludes_iff _ _).mp hs)
    · exact Or.inr ((jsIncludes_iff _ _).mp hc)
  · simp only [List.any_eq_true] at h2
    simp only [Bool.false_eq_true, false_iff, not_and]
    intro _hno hcase
    rcases hcase with ⟨kw, hkw, hinf⟩ | ⟨hcomp, hparty⟩ | ⟨hsc, hagr, hcon⟩
    · exact h2 ⟨kw, hkw, (jsIncludes_iff _ _).mpr hinf⟩
    · exact h3 ⟨(jsIncludes_iff _ _).mpr hcomp,
        fun hp => hparty ((jsIncludes_iff _ _).mp hp)⟩
    · refine h4 ⟨?_, fun ha => hagr ((jsIncludes_iff _ _).mp ha),
        fun hc => hcon ((jsIncludes_iff _ _).mp hc)⟩
      rcases hsc with hs | hc
      · exact Or.inl ((jsIncludes_iff _ _).mpr hs)
      · exact Or.inr ((jsIncludes_iff _ _).mpr hc)

/-- Claim C5: `extractContextFromRawText` (called, as in the source, with
the lowercased raw text) returns `none` when the trimmed snippet is
empty or its lowercase form does not occur in the lowercased raw text;
otherwise, with `i` the first occurrence index and
`p = max 40 (trimmed length)`, it returns the slice of the original raw
text from `max 0 (i - p)` to `min (length) (i + trimmed length + p)`
with whitespace runs collapsed to single spaces and the ends trimmed. -/
theorem claim_C5_extractContext_characterization (rawText snippet : String) :
    ((jsTrim snippet = "" ∨
        ∀ j, ¬ occursAt (jsLower rawText).data (jsLower (jsTrim snippet)).data j) →
      extractContextFromRawText rawText (jsLower rawText) snippet = none)
    ∧ (∀ i, jsTrim snippet ≠ "" →
        occursAt (jsLower rawText).data (jsLower (jsTrim snippet)).data i →
        (∀ j, j < i → ¬ occursAt (jsLower rawText).data (jsLower (jsTrim snippet)).data j) →
        extractContextFromRawText rawText (jsLower rawText) snippet =
          some ⟨trimL (collapseRuns jsIsWs ' '
            ((rawText.data.take (min rawText.data.length
                (i + (jsTrim snippet).data.length + max 40 (jsTrim snippet).data.length))).drop
              (i - max 40 (jsTrim snippet).data.length)))⟩) := by
  constructor
  · intro hdisj
    by_cases h : jsTrim snippet = ""
    · simp [extractContextFromRawText, h]
    · rcases hdisj with h' | hnone
      · exact absurd h' h
      · simp only [extractContextFromRawText, h, if_false]
        cases hfi : firstIndexOf (jsLower (jsTrim snippet)).data (jsLower rawText).data with
        | none => rfl
        | some i =>
          exact absurd (firstIndexOf_some _ _ i hfi).1 (hnone i)
  · intro i hne hocc hmin
    have hfi := firstIndexOf_eq_some _ _ i hocc hmin
    simp only [extractContextFromRawText, hne, if_false]
    rw [hfi]

/-- Witness for C5: a snippet that does not occur yields `none`; a
snippet occurring at index 0 yields the cleaned padded slice. -/
theorem claim_C5_extractContext_witness :
    extractContextFromRawText "CompanyName Inc is a company"
        (jsLower "CompanyName Inc is a company") "zzz" = none
    ∧ extractContextFromRawText "CompanyName Inc is a company"
        (jsLower "CompanyName Inc is a company") " companyName " =
      some "CompanyName Inc is a company" := by
  constructor
  · exact (claim_C5_extractContext_characterization
      "CompanyName Inc is a company" "zzz").1
      (Or.inr (firstIndexOf_none _ _ (by decide)))
  · have h := (claim_C5_extractContext_characterization
      "CompanyName Inc is a company" " companyName ").2 0
      (by decide) (firstIndexOf_some _ _ 0 (by decide)).1
      (firstIndexOf_some _ _ 0 (by decide)).2
    rw [h]
    decide

/-! ### Structure of the canonical key space -/

theorem mem_collapseGo (p : Char → Bool) (r : Char) (b : Bool) (l : List Char)
    (c : Char) (hc : c ∈ collapseGo p r b l) : c = r ∨ (c ∈ l ∧ p c = false) := by
  induction l generalizing b with
  | nil => simp [collapseGo] at hc
  | cons x xs ih =>
    by_cases hx : p x
    · simp only [collapseGo, hx, if_true] at hc
      by_cases hb : b
      · rw [if_pos hb] at hc
        rcases ih true hc with h | ⟨hm, hp⟩
        · exact Or.inl h
        · exact Or.inr ⟨List.mem_cons_of_mem x hm, hp⟩
      · rw [if_neg hb] at hc
        rcases List.mem_cons.mp hc with h | h
        · exact Or.inl h
        · rcases ih true h with h' | ⟨hm, hp⟩
          · exact Or.inl h'
          · exact Or.inr ⟨List.mem_cons_of_mem x hm, hp⟩
    · simp only [collapseGo, hx, if_false] at hc
      rcases List.mem_cons.mp hc with h | h
      · subst h
        exact Or.inr ⟨List.mem_cons_self .., by simpa using hx⟩
      · rcases ih false h with h' | ⟨hm, hp⟩
        · exact Or.inl h'
        · exact Or.inr ⟨List.mem_cons_of_mem x hm, hp⟩

theorem collapseGo_true_head (p : Char → Bool) (r : Char) (l : List Char)
    (c : Char) (hc : (collapseGo p r true l).head? = some c) : p c = false := by
  induction l with
  | nil => simp [collapseGo] at hc
  | cons x xs ih =>
    by_cases hx : p x
    · simp only [collapseGo, hx, if_true, if_pos] at hc
      exact ih hc
    · simp only [collapseGo, hx, if_false, List.head?_cons] at hc
      obtain rfl := Option.some.inj hc
      simpa using hx

theorem noAdjRun_collapseGo (p : Char → Bool) (r : Char) (hpr : p r = true)
    (b : Bool) (l : List Char) : noAdjRun r (collapseGo p r b l) = true := by
  induction l generalizing b with
  | nil => rfl
  | cons x xs ih =>
    by_cases hx : p x
    · simp only [collapseGo, hx, if_true]
      by_cases hb : b
      · rw [if_pos hb]; exact ih true
      · rw [if_neg hb]
        cases hh : (collapseGo p r true xs).head? with
        | none =>
          rw [List.head?_eq_none_iff] at hh
          rw [hh]
          rfl
        | some c =>
          have hpc := collapseGo_true_head p r xs c hh
          cases hcg : collapseGo p r true xs with
          | nil => rfl
          | cons y ys =>
            rw [hcg, List.head?_cons] at hh
            obtain rfl := Option.some.inj hh
            have := ih true
            rw [hcg] at this
            simp only [noAdjRun]
            rw [if_neg, this]
            rintro ⟨-, rfl⟩
            rw [hpr] at hpc
            exact Bool.noConfusion hpc
    · simp only [collapseGo, hx, if_false]
      cases hcg : collapseGo p r false xs with
      | nil => rfl
      | cons y ys =>
        have := ih false
        rw [hcg] at this
        simp only [noAdjRun]
        rw [if_neg, this]
        rintro ⟨rfl, -⟩
        rw [hpr] at hx
        exact hx rfl

theorem noAdjRun_tail (r : Char) (c : Char) (l : List Char)
    (h : noAdjRun r (c :: l) = true) : noAdjRun r l = true := by
  cases l with
  | nil => rfl
  | cons d rest =>
    simp only [noAdjRun] at h
    split at h
    · exact absurd h (by simp)
    · exact h

theorem noAdjRun_dropWhile (r : Char) (q : Char → Bool) (l : List Char)
    (h : noAdjRun r l = true) : noAdjRun r (l.dropWhile q) = true := by
  induction l with
  | nil => exact h
  | cons x xs ih =>
    rw [List.dropWhile_cons]
    split
    · exact ih (noAdjRun_tail r x xs h)
    · exact h

theorem noAdjRun_append_left (r : Char) (l t : List Char)
    (h : noAdjRun r (l ++ t) = true) : noAdjRun r l = true := by
  induction l with
  | nil => rfl
  | cons x xs ih =>
    cases xs with
    | nil => rfl
    | cons y ys =>
      simp only [List.cons_append, noAdjRun] at h ⊢
      split at h
      · exact absurd h (by simp)
      · rename_i hne
        rw [if_neg hne]
        exact ih h

theorem noAdjRun_dropTrailing (r : Char) (q : Char → Bool) (l : List Char)
    (h : noAdjRun r l = true) : noAdjRun r (dropTrailing q l) = true := by
  have hpre : dropTrailing q l <+: l := by
    have hs : l.reverse.dropWhile q <:+ l.reverse := List.dropWhile_suffix q
    obtain ⟨t, ht⟩ := hs
    refine ⟨t.reverse, ?_⟩
    have := congrArg List.reverse ht
    simpa [dropTrailing] using this
  obtain ⟨t, ht⟩ := hpre
  exact noAdjRun_append_left r _ t (by rw [ht]; exact h)

theorem dropTrailing_prefixOf (q : Char → Bool) (l : List Char) :
    dropTrailing q l <+: l := by
  have hs : l.reverse.dropWhile q <:+ l.reverse := List.dropWhile_suffix q
  obtain ⟨t, ht⟩ := hs
  refine ⟨t.reverse, ?_⟩
  have := congrArg List.reverse ht
  simpa [dropTrailing] using this

theorem mem_dropTrailing (q : Char → Bool) (l : List Char) (c : Char)
    (hc : c ∈ dropTrailing q l) : c ∈ l :=
  (dropTrailing_prefixOf q l).subset hc

theorem head?_dropWhile_not (q : Char → Bool) (l : List Char) (c : Char)
    (hc : (l.dropWhile q).head? = some c) : q c = false := by
  induction l with
  | nil => simp at hc
  | cons x xs ih =>
    rw [List.dropWhile_cons] at hc
    split at hc
    · exact ih hc
    · rename_i hx
      rw [List.head?_cons] at hc
      obtain rfl := Option.some.inj hc
      simpa using hx

theorem getLast?_dropTrailing_not (q : Char → Bool) (l : List Char) (c : Char)
    (hc : (dropTrailing q l).getLast? = some c) : q c = false := by
  rw [dropTrailing, List.getLast?_reverse] at hc
  exact head?_dropWhile_not q l.reverse c hc

theorem head?_dropTrailing (q : Char → Bool) (l : List Char) (c : Char)
    (hc : (dropTrailing q l).head? = some c) : l.head? = some c := by
  obtain ⟨t, ht⟩ := dropTrailing_prefixOf q l
  cases hd : dropTrailing q l with
  | nil => rw [hd] at hc; simp at hc
  | cons y ys =>
    rw [hd] at hc ht
    rw [← ht]
    simpa using hc

theorem dropWhile_eq_self_of_all (q : Char → Bool) (l : List Char)
    (h : ∀ c ∈ l, q c = false) : l.dropWhile q = l := by
  cases l with
  | nil => rfl
  | cons x xs =>
    rw [List.dropWhile_cons, if_neg]
    rw [h x (List.mem_cons_self ..)]
    simp

theorem dropTrailing_eq_self_of_all (q : Char → Bool) (l : List Char)
    (h : ∀ c ∈ l, q c = false) : dropTrailing q l = l := by
  rw [dropTrailing, dropWhile_eq_self_of_all q l.reverse
    (fun c hc => h c (List.mem_reverse.mp hc)), List.reverse_reverse]

theorem dropWhile_eq_self_of_head (q : Char → Bool) (l : List Char)
    (h : ∀ c, l.head? = some c → q c = false) : l.dropWhile q = l := by
  cases l with
  | nil => rfl
  | cons x xs =>
    rw [List.dropWhile_cons, if_neg]
    rw [h x (by rw [List.head?_cons])]
    simp

theorem dropTrailing_eq_self_of_getLast (q : Char → Bool) (l : List Char)
    (h : ∀ c, l.getLast? = some c → q c = false) : dropTrailing q l = l := by
  rw [dropTrailing, dropWhile_eq_self_of_head q l.reverse
    (fun c hc => h c (by rwa [List.head?_reverse] at hc)), List.reverse_reverse]

/-! ### Character-class facts -/

theorem good_char_ranges (c : Char) (h : isLowerAlnum c = true ∨ c = '_') :
    (97 ≤ c.toNat ∧ c.toNat ≤ 122) ∨ (48 ≤ c.toNat ∧ c.toNat ≤ 57) ∨ c.toNat = 95 := by
  rcases h with h | rfl
  · simp only [isLowerAlnum, Bool.or_eq_true, decide_eq_true_eq] at h
    rcases h with ⟨h1, h2⟩ | ⟨h1, h2⟩
    · refine Or.inl ⟨?_, ?_⟩
      · have h1' : ('a').toNat ≤ c.toNat := h1
        rwa [show ('a').toNat = 97 from rfl] at h1'
      · have h2' : c.toNat ≤ ('z').toNat := h2
        rwa [show ('z').toNat = 122 from rfl] at h2'
    · refine Or.inr (Or.inl ⟨?_, ?_⟩)
      · have h1' : ('0').toNat ≤ c.toNat := h1
        rwa [show ('0').toNat = 48 from rfl] at h1'
      · have h2' : c.toNat ≤ ('9').toNat := h2
        rwa [show ('9').toNat = 57 from rfl] at h2'
  · exact Or.inr (Or.inr rfl)

theorem good_jsLowerChar_id (c : Char) (h : isLowerAlnum c = true ∨ c = '_') :
    jsLowerChar c = c := by
  have hr := good_char_ranges c h
  unfold jsLowerChar
  rw [if_neg]
  rintro ⟨h1, h2⟩
  have h1' : ('A').toNat ≤ c.toNat := h1
  have h2' : c.toNat ≤ ('Z').toNat := h2
  rw [show ('A').toNat = 65 from rfl] at h1'
  rw [show ('Z').toNat = 90 from rfl] at h2'
  omega

theorem good_not_ws (c : Char) (h : isLowerAlnum c = true ∨ c = '_') :
    jsIsWs c = false := by
  simp only [jsIsWs]
  rw [decide_eq_false]
  rintro (rfl | rfl | rfl | rfl | rfl | rfl | rfl) <;> revert h <;> decide

theorem good_ascii (c : Char) (h : isLowerAlnum c = true ∨ c = '_') :
    c.toNat < 128 := by
  have hr := good_char_ranges c h
  omega

theorem ascii_nfkdChar_id (c : Char) (h : c.toNat < 128) : nfkdChar c = [c] := by
  unfold nfkdChar
  rw [if_pos h]

theorem ascii_nfkdL_id (l : List Char) (h : ∀ c ∈ l, c.toNat < 128) :
    nfkdL l = l := by
  induction l with
  | nil => rfl
  | cons x xs ih =>
    simp only [nfkdL, List.map_cons, List.flatten_cons]
    rw [ascii_nfkdChar_id x (h x (List.mem_cons_self ..))]
    have := ih (fun c hc => h c (List.mem_cons_of_mem x hc))
    simp only [nfkdL] at this
    rw [this]
    rfl

theorem ascii_stripCombining_id (l : List Char) (h : ∀ c ∈ l, c.toNat < 128) :
    stripCombining l = l := by
  rw [stripCombining, List.filter_eq_self]
  intro c hc
  rw [decide_eq_true_eq]
  rintro ⟨h1, -⟩
  have h1' : ('̀').toNat ≤ c.toNat := h1
  rw [show ('̀').toNat = 768 from rfl] at h1'
  have := h c hc
  omega

theorem map_jsLowerChar_id (l : List Char)
    (h : ∀ c ∈ l, isLowerAlnum c = true ∨ c = '_') :
    l.map jsLowerChar = l := by
  induction l with
  | nil => rfl
  | cons x xs ih =>
    rw [List.map_cons, good_jsLowerChar_id x (h x (List.mem_cons_self ..)),
      ih (fun c hc => h c (List.mem_cons_of_mem x hc))]

theorem trimL_eq_self_of_good (l : List Char)
    (h : ∀ c ∈ l, isLowerAlnum c = true ∨ c = '_') : trimL l = l := by
  rw [trimL, dropWhile_eq_self_of_all jsIsWs l (fun c hc => good_not_ws c (h c hc)),
    dropTrailing_eq_self_of_all jsIsWs l (fun c hc => good_not_ws c (h c hc))]

/-- Shared tail of both normalizers: `replace(/[^a-z0-9]+/g, '_')`
followed by `replace(/^_+|_+$/g, '')`.  Its output consists of lowercase
ASCII alphanumerics and underscores, never starts or ends with an
underscore, and never holds two adjacent underscores. -/
theorem stripCollapse_good (l : List Char) :
    (∀ c ∈ stripUnderscoresL (collapseRuns (fun c => ¬ isLowerAlnum c) '_' l),
        isLowerAlnum c = true ∨ c = '_')
    ∧ noAdjRun '_' (stripUnderscoresL (collapseRuns (fun c => ¬ isLowerAlnum c) '_' l)) = true
    ∧ (∀ c, (stripUnderscoresL (collapseRuns (fun c => ¬ isLowerAlnum c) '_' l)).head? =
        some c → c ≠ '_')
    ∧ (∀ c, (stripUnderscoresL (collapseRuns (fun c => ¬ isLowerAlnum c) '_' l)).getLast? =
        some c → c ≠ '_') := by
  refine ⟨?_, ?_, ?_, ?_⟩
  · intro c hc
    rw [stripUnderscoresL] at hc
    have hc' : c ∈ collapseRuns (fun c => ¬ isLowerAlnum c) '_' l :=
      (List.dropWhile_sublist _).subset (mem_dropTrailing _ _ c hc)
    rcases mem_collapseGo _ '_' false l c hc' with h | ⟨-, hp⟩
    · exact Or.inr h
    · simp only [decide_eq_false_iff_not, not_not] at hp
      exact Or.inl hp
  · rw [stripUnderscoresL]
    exact noAdjRun_dropTrailing _ _ _
      (noAdjRun_dropWhile _ _ _ (noAdjRun_collapseGo _ '_' (by decide) false l))
  · intro c hc
    have := head?_dropWhile_not (· = '_') _ c (head?_dropTrailing _ _ c hc)
    simpa using this
  · intro c hc
    have := getLast?_dropTrailing_not (· = '_') _ c hc
    simpa using this

/-- On a list of alphanumerics and isolated underscores the
`[^a-z0-9]+ → _` replacement is the identity.  The second conjunct keeps
the run-flag invariant through the induction. -/
theorem collapseGo_id_of_good (l : List Char)
    (hgood : ∀ c ∈ l, isLowerAlnum c = true ∨ c = '_')
    (hadj : noAdjRun '_' l = true) :
    collapseGo (fun c => ¬ isLowerAlnum c) '_' false l = l
    ∧ ((∀ c, l.head? = some c → c ≠ '_') →
        collapseGo (fun c => ¬ isLowerAlnum c) '_' true l = l) := by
  induction l with
  | nil => exact ⟨rfl, fun _ => rfl⟩
  | cons x xs ih =>
    have hx := hgood x (List.mem_cons_self ..)
    have hxs : ∀ c ∈ xs, isLowerAlnum c = true ∨ c = '_' :=
      fun c hc => hgood c (List.mem_cons_of_mem x hc)
    have hadj' : noAdjRun '_' xs = true := noAdjRun_tail '_' x xs hadj
    obtain ⟨ih1, ih2⟩ := ih hxs hadj'
    rcases hx with hx | rfl
    · have hpx : (decide ¬ isLowerAlnum x = true) = false := by
        simp [hx]
      constructor
      · simp only [collapseGo, hpx]
        rw [if_neg (by simp [hx]), ih1]
      · intro _
        simp only [collapseGo]
        rw [if_neg (by simp [hx]), ih1]
    · constructor
      · simp only [collapseGo]
        rw [if_pos (by decide), if_neg (by simp)]
        have hxh : ∀ c, xs.head? = some c → c ≠ '_' := by
          intro c hc
          cases xs with
          | nil => simp at hc
          | cons y ys =>
            rw [List.head?_cons] at hc
            obtain rfl := Option.some.inj hc
            simp only [noAdjRun] at hadj
            split at hadj
            · exact absurd hadj (by simp)
            · rename_i hne
              intro hceq
              subst hceq
              simp at hne
        rw [ih2 hxh]
      · intro hhead
        exact absurd rfl (hhead '_' (by rw [List.head?_cons]))

theorem stripUnderscoresL_eq_self (l : List Char)
    (hhead : ∀ c, l.head? = some c → c ≠ '_')
    (hlast : ∀ c, l.getLast? = some c → c ≠ '_') :
    stripUnderscoresL l = l := by
  rw [stripUnderscoresL,
    dropWhile_eq_self_of_head (· = '_') l
      (fun c hc => by simpa using hhead c hc),
    dropTrailing_eq_self_of_getLast (· = '_') l
      (fun c hc => by simpa using hlast c hc)]

/-- `companyKeyCore` is the identity on lists that already have the
canonical shape. -/
theorem companyKeyCore_eq_self (t : List Char)
    (hgood : ∀ c ∈ t, isLowerAlnum c = true ∨ c = '_')
    (hadj : noAdjRun '_' t = true)
    (hhead : ∀ c, t.head? = some c → c ≠ '_')
    (hlast : ∀ c, t.getLast? = some c → c ≠ '_') :
    companyKeyCore t = t := by
  rw [companyKeyCore, trimL_eq_self_of_good t hgood, map_jsLowerChar_id t hgood,
    show collapseRuns (fun c => ¬ isLowerAlnum c) '_' t = t from
      (collapseGo_id_of_good t hgood hadj).1]
  exact stripUnderscoresL_eq_self t hhead hlast

/-- Reapplying `companyKeyCore` to its own output changes nothing. -/
theorem companyKeyCore_reapply (l : List Char) :
    companyKeyCore (companyKeyCore l) = companyKeyCore l := by
  obtain ⟨hgood, hadj, hhead, hlast⟩ :=
    stripCollapse_good ((trimL l).map jsLowerChar)
  exact companyKeyCore_eq_self (companyKeyCore l) hgood hadj hhead hlast

/-- The core of `normalizeIdentifier`, applied to a `companyKeyCore`- or
`normalizeIdentifier`-shaped output, changes nothing either. -/
theorem identifierCore_eq_self (t : List Char)
    (hgood : ∀ c ∈ t, isLowerAlnum c = true ∨ c = '_')
    (hadj : noAdjRun '_' t = true)
    (hhead : ∀ c, t.head? = some c → c ≠ '_')
    (hlast : ∀ c, t.getLast? = some c → c ≠ '_') :
    stripUnderscoresL (collapseRuns (fun c => ¬ isLowerAlnum c) '_'
      (stripCombining (nfkdL (t.map jsLowerChar)))) = t := by
  rw [map_jsLowerChar_id _ hgood,
    ascii_nfkdL_id t (fun c hc => good_ascii c (hgood c hc)),
    ascii_stripCombining_id t (fun c hc => good_ascii c (hgood c hc)),
    show collapseRuns (fun c => ¬ isLowerAlnum c) '_' t = _ from
      (collapseGo_id_of_good t hgood hadj).1]
  exact stripUnderscoresL_eq_self t hhead hlast

theorem normalizeCompanyDataKey_eq_some (s t : String)
    (h : normalizeCompanyDataKey (some s) = some t) :
    s ≠ "" ∧ companyKeyCore s.data = t.data ∧ t.data ≠ [] := by
  by_cases hs : s = ""
  · simp [normalizeCompanyDataKey, hs] at h
  · by_cases hcore : companyKeyCore s.data = []
    · simp [normalizeCompanyDataKey, hs, hcore] at h
    · simp only [normalizeCompanyDataKey, hs, if_false, hcore] at h
      obtain rfl := Option.some.inj h
      exact ⟨hs, rfl, hcore⟩

/-- A canonical key is a fixed point of `normalizeCompanyDataKey`. -/
theorem normalizeCompanyDataKey_canonical (s t : String)
    (h : normalizeCompanyDataKey (some s) = some t) :
    normalizeCompanyDataKey (some t) = some t := by
  obtain ⟨-, hcore, hne⟩ := normalizeCompanyDataKey_eq_some s t h
  obtain ⟨hgood, hadj, hhead, hlast⟩ := stripCollapse_good ((trimL s.data).map jsLowerChar)
  rw [← hcore] at hne
  have hgood' : ∀ c ∈ t.data, isLowerAlnum c = true ∨ c = '_' := hcore ▸ hgood
  have hadj' : noAdjRun '_' t.data = true := hcore ▸ hadj
  have hhead' : ∀ c, t.data.head? = some c → c ≠ '_' := hcore ▸ hhead
  have hlast' : ∀ c, t.data.getLast? = some c → c ≠ '_' := hcore ▸ hlast
  have hts : t ≠ "" := by
    intro hteq
    rw [hteq] at hcore
    exact hne hcore
  have hid : companyKeyCore t.data = t.data :=
    companyKeyCore_eq_self t.data hgood' hadj' hhead' hlast'
  simp only [normalizeCompanyDataKey, hts, if_false, hid]
  rw [if_neg (show ¬ t.data = [] from hcore ▸ hne)]

/-- `normalizeIdentifier` is idempotent. -/
theorem normalizeIdentifier_idem (s : String) :
    normalizeIdentifier (normalizeIdentifier s) = normalizeIdentifier s := by
  obtain ⟨hgood, hadj, hhead, hlast⟩ :=
    stripCollapse_good (stripCombining (nfkdL (s.data.map jsLowerChar)))
  show (⟨stripUnderscoresL (collapseRuns (fun c => ¬ isLowerAlnum c) '_'
      (stripCombining (nfkdL ((normalizeIdentifier s).data.map jsLowerChar))))⟩ : String) =
    normalizeIdentifier s
  rw [identifierCore_eq_self (normalizeIdentifier s).data hgood hadj hhead hlast]

/-- Claim C7: the output of `normalizeCompanyDataKey` (when non-null)
and of `normalizeIdentifier` consists only of lowercase ASCII letters,
digits and underscores, never starts or ends with an underscore, and
each function is the identity on its own output. -/
theorem claim_C7_normalization_canonical (s t : String) :
    (normalizeCompanyDataKey (some s) = some t →
      (∀ c ∈ t.data, isLowerAlnum c = true ∨ c = '_')
      ∧ (∀ c, t.data.head? = some c → c ≠ '_')
      ∧ (∀ c, t.data.getLast? = some c → c ≠ '_')
      ∧ normalizeCompanyDataKey (some t) = some t)
    ∧ ((∀ c ∈ (normalizeIdentifier s).data, isLowerAlnum c = true ∨ c = '_')
      ∧ (∀ c, (normalizeIdentifier s).data.head? = some c → c ≠ '_')
      ∧ (∀ c, (normalizeIdentifier s).data.getLast? = some c → c ≠ '_')
      ∧ normalizeIdentifier (normalizeIdentifier s) = normalizeIdentifier s) := by
  constructor
  · intro h
    obtain ⟨-, hcore, -⟩ := normalizeCompanyDataKey_eq_some s t h
    obtain ⟨hgood, -, hhead, hlast⟩ := stripCollapse_good ((trimL s.data).map jsLowerChar)
    exact ⟨hcore ▸ hgood, hcore ▸ hhead, hcore ▸ hlast,
      normalizeCompanyDataKey_canonical s t h⟩
  · obtain ⟨hgood, -, hhead, hlast⟩ :=
      stripCollapse_good (stripCombining (nfkdL (s.data.map jsLowerChar)))
    exact ⟨hgood, hhead, hlast, normalizeIdentifier_idem s⟩

/-- Witness for C7 at the concrete input `" My-Key! "`, whose canonical
key is `"my_key"`. -/
theorem claim_C7_normalization_canonical_witness :
    normalizeCompanyDataKey (some "my_key") = some "my_key"
    ∧ normalizeIdentifier (normalizeIdentifier " My-Key! ") =
      normalizeIdentifier " My-Key! " := by
  refine ⟨((claim_C7_normalization_canonical " My-Key! " "my_key").1 (by decide)).2.2.2, ?_⟩
  exact (claim_C7_normalization_canonical " My-Key! " "my_key").2.2.2.2

/-! ### The initial trim of the company-key normalizer is invisible -/

theorem collapseGo_append (p : Char → Bool) (r : Char) (b : Bool) (x y : List Char) :
    collapseGo p r b (x ++ y) =
      collapseGo p r b x ++ collapseGo p r (runState p b x) y := by
  induction x generalizing b with
  | nil => rfl
  | cons c cs ih =>
    by_cases hc : p c <;> cases b <;>
      simp [collapseGo, runState, hc, ih]

theorem stripUnderscoresL_cons_underscore (x : List Char) :
    stripUnderscoresL ('_' :: x) = stripUnderscoresL x := by
  rw [stripUnderscoresL, stripUnderscoresL, List.dropWhile_cons, if_pos (by simp)]

theorem dropTrailing_snoc_pos (q : Char → Bool) (x : List Char) (c : Char)
    (hc : q c = true) : dropTrailing q (x ++ [c]) = dropTrailing q x := by
  rw [dropTrailing, dropTrailing, List.reverse_append, List.reverse_singleton,
    List.singleton_append, List.dropWhile_cons, if_pos hc]

theorem stripUnderscoresL_snoc_underscore (x : List Char) :
    stripUnderscoresL (x ++ ['_']) = stripUnderscoresL x := by
  rw [stripUnderscoresL, stripUnderscoresL, List.dropWhile_append]
  split
  · rename_i hemp
    have : x.dropWhile (· = '_') = [] := by simpa using hemp
    rw [this]
    rw [show List.dropWhile (· = '_') ['_'] = [] from rfl]
  · exact dropTrailing_snoc_pos _ _ _ (by simp)

theorem stripUnderscoresL_go_shift (p : Char → Bool) (l : List Char) :
    stripUnderscoresL ('_' :: collapseGo p '_' true l) =
      stripUnderscoresL (collapseGo p '_' false l) := by
  cases l with
  | nil => rfl
  | cons c cs =>
    by_cases hc : p c <;>
      simp [collapseGo, hc, stripUnderscoresL_cons_underscore]

theorem ws_char_cases (c : Char) (h : jsIsWs c = true) :
    c = ' ' ∨ c = '\t' ∨ c = '\n' ∨ c = '\r' ∨ c = '\x0b' ∨ c = '\x0c' ∨ c = ' ' := by
  exact of_decide_eq_true h

theorem ws_jsLowerChar_id (c : Char) (h : jsIsWs c = true) : jsLowerChar c = c := by
  rcases ws_char_cases c h with rfl | rfl | rfl | rfl | rfl | rfl | rfl <;> decide

theorem ws_not_alnum (c : Char) (h : jsIsWs c = true) : isLowerAlnum c = false := by
  rcases ws_char_cases c h with rfl | rfl | rfl | rfl | rfl | rfl | rfl <;> decide

/-- Dropping the leading whitespace before lowercasing, collapsing and
stripping changes nothing: the leading whitespace becomes part of the
leading non-alphanumeric run, which the strip removes either way. -/
theorem strip_collapse_dropWhile_ws (l : List Char) :
    stripUnderscoresL (collapseGo (fun c => ¬ isLowerAlnum c) '_' false
        ((l.dropWhile jsIsWs).map jsLowerChar)) =
      stripUnderscoresL (collapseGo (fun c => ¬ isLowerAlnum c) '_' false
        (l.map jsLowerChar)) := by
  induction l with
  | nil => rfl
  | cons c cs ih =>
    by_cases hc : jsIsWs c
    · rw [List.dropWhile_cons, if_pos hc, ih, List.map_cons,
        ws_jsLowerChar_id c hc]
      have hgo : collapseGo (fun c => ¬ isLowerAlnum c) '_' false
            (c :: cs.map jsLowerChar) =
          '_' :: collapseGo (fun c => ¬ isLowerAlnum c) '_' true (cs.map jsLowerChar) := by
        simp [collapseGo, ws_not_alnum c hc]
      rw [hgo, stripUnderscoresL_go_shift]
    · rw [List.dropWhile_cons, if_neg hc]

/-- A list of whitespace collapses to at most one underscore. -/
theorem collapseGo_all_nonalnum (p : Char → Bool) (w : List Char)
    (hw : ∀ c ∈ w, p c = true) :
    collapseGo p '_' true w = []
    ∧ collapseGo p '_' false w = (if w = [] then [] else ['_']) := by
  induction w with
  | nil => exact ⟨rfl, rfl⟩
  | cons c cs ih =>
    have hc := hw c (List.mem_cons_self ..)
    obtain ⟨ih1, ih2⟩ := ih (fun d hd => hw d (List.mem_cons_of_mem c hd))
    constructor
    · simp [collapseGo, hc, ih1]
    · simp [collapseGo, hc, ih1]

/-- Dropping the trailing whitespace is also invisible. -/
theorem strip_collapse_dropTrailing_ws (l : List Char) :
    stripUnderscoresL (collapseGo (fun c => ¬ isLowerAlnum c) '_' false
        ((dropTrailing jsIsWs l).map jsLowerChar)) =
      stripUnderscoresL (collapseGo (fun c => ¬ isLowerAlnum c) '_' false
        (l.map jsLowerChar)) := by
  have hsplit : l = dropTrailing jsIsWs l ++ (l.reverse.takeWhile jsIsWs).reverse := by
    rw [dropTrailing]
    have := List.takeWhile_append_dropWhile (p := jsIsWs) (l := l.reverse)
    have h2 := congrArg List.reverse this
    rw [List.reverse_append] at h2
    calc l = l.reverse.reverse := (List.reverse_reverse l).symm
    _ = _ := by rw [← h2]
  set front := dropTrailing jsIsWs l with hfront
  set w := (l.reverse.takeWhile jsIsWs).reverse with hw
  have hwws : ∀ c ∈ w, jsIsWs c = true := by
    intro c hc
    rw [hw, List.mem_reverse] at hc
    exact List.mem_takeWhile_imp hc
  conv_rhs => rw [hsplit]
  rw [List.map_append, collapseGo_append]
  have hwp : ∀ c ∈ w.map jsLowerChar, decide (¬ isLowerAlnum c = true) = true := by
    intro c hc
    rw [List.mem_map] at hc
    obtain ⟨d, hd, rfl⟩ := hc
    rw [ws_jsLowerChar_id d (hwws d hd)]
    simp [ws_not_alnum d (hwws d hd)]
  obtain ⟨htrue, hfalse⟩ := collapseGo_all_nonalnum _ (w.map jsLowerChar) hwp
  cases hrs : runState (fun c => ¬ isLowerAlnum c) false (front.map jsLowerChar) with
  | true =>
    rw [htrue, List.append_nil]
  | false =>
    rw [hfalse]
    split
    · rw [List.append_nil]
    · rw [stripUnderscoresL_snoc_underscore]

/-- The initial `trim()` of `normalizeCompanyDataKey` never changes the
canonical key: the whitespace it removes is erased later anyway. -/
theorem companyKeyCore_eq_no_trim (l : List Char) :
    companyKeyCore l =
      stripUnderscoresL (collapseRuns (fun c => ¬ isLowerAlnum c) '_'
        (l.map jsLowerChar)) := by
  rw [companyKeyCore, trimL, collapseRuns, collapseRuns,
    strip_collapse_dropTrailing_ws, strip_collapse_dropWhile_ws]

theorem jsLowerChar_ascii (c : Char) (h : c.toNat < 128) :
    (jsLowerChar c).toNat < 128 := by
  unfold jsLowerChar
  split
  · rename_i hr
    obtain ⟨h1, h2⟩ := hr
    have h1' : ('A').toNat ≤ c.toNat := h1
    have h2' : c.toNat ≤ ('Z').toNat := h2
    rw [show ('A').toNat = 65 from rfl] at h1'
    rw [show ('Z').toNat = 90 from rfl] at h2'
    have : (Char.ofNat (c.toNat + 32)).toNat = c.toNat + 32 := by
      unfold Char.ofNat
      rw [dif_pos]
      · rfl
      · show Nat.isValidChar (c.toNat + 32)
        left
        omega
    omega
  · exact h

/-- Counterexample to claim C6 as stated: on the input `"é"`,
`normalizeCompanyDataKey` yields no key (the empty string under the
claim's convention) while `normalizeIdentifier` yields `"e"`, because
only the latter strips accents through NFKD decomposition. -/
theorem claim_C6_normalizers_counterexample :
    (normalizeCompanyDataKey (some "é")).getD "" ≠ normalizeIdentifier "é" := by
  decide

/-- Claim C6 (amended): on every input string made of ASCII characters,
the parser's `normalizeIdentifier` and the company module's
`normalizeCompanyDataKey` produce the same canonical key, reading the
latter's `null` as the empty string.  (On non-ASCII input they can
differ, see the counterexample.) -/
theorem claim_C6_normalizers_agree_on_ascii (s : String)
    (h : ∀ c ∈ s.data, c.toNat < 128) :
    (normalizeCompanyDataKey (some s)).getD "" = normalizeIdentifier s := by
  have hmapascii : ∀ c ∈ s.data.map jsLowerChar, c.toNat < 128 := by
    intro c hc
    rw [List.mem_map] at hc
    obtain ⟨d, hd, rfl⟩ := hc
    exact jsLowerChar_ascii d (h d hd)
  have hident : normalizeIdentifier s =
      ⟨stripUnderscoresL (collapseRuns (fun c => ¬ isLowerAlnum c) '_'
        (s.data.map jsLowerChar))⟩ := by
    rw [normalizeIdentifier, ascii_nfkdL_id _ hmapascii,
      ascii_stripCombining_id _ hmapascii]
  by_cases hs : s = ""
  · subst hs
    decide
  · rw [hident]
    simp only [normalizeCompanyDataKey, hs, if_false, companyKeyCore_eq_no_trim]
    by_cases hcore : stripUnderscoresL (collapseRuns (fun c => ¬ isLowerAlnum c) '_'
        (s.data.map jsLowerChar)) = []
    · rw [if_pos hcore, hcore]
      rfl
    · rw [if_neg hcore]
      rfl

/-- Witness for the amended C6 at the ASCII input `"Company Name"`. -/
theorem claim_C6_normalizers_agree_on_ascii_witness :
    (normalizeCompanyDataKey (some "Company Name")).getD "" =
      normalizeIdentifier "Company Name" := by
  exact claim_C6_normalizers_agree_on_ascii "Company Name" (by decide)

/-! ### Structure of assignment runs -/

theorem lastAssign_cons (k q : String) (v : α) (A : List (String × α)) :
    lastAssign q ((k, v) :: A) =
      match lastAssign q A with
      | some w => some w
      | none => if k = q then some v else none :=
  rfl

theorem lastAssign_cons_ne (k q : String) (v : α) (A : List (String × α))
    (h : k ≠ q) : lastAssign q ((k, v) :: A) = lastAssign q A := by
  rw [lastAssign_cons]
  cases lastAssign q A with
  | some w => rfl
  | none => simp [h]

theorem contains_iff_mem_keys (k : String) (m : List (String × α)) :
    containsKey k m = true ↔ k ∈ m.map Prod.fst := by
  simp only [containsKey, List.any_eq_true, decide_eq_true_eq, List.mem_map]

theorem not_contains_key_ne (k : String) (m : List (String × α))
    (hc : containsKey k m = false) : ∀ p ∈ m, p.1 ≠ k := by
  intro p hp hpk
  have : containsKey k m = true := (contains_iff_mem_keys k m).mpr
    (List.mem_map.mpr ⟨p, hp, hpk⟩)
  rw [hc] at this
  exact Bool.noConfusion this

theorem setVal_eq_append_of_not_contains (m : List (String × α)) (k : String)
    (v : α) (hc : containsKey k m = false) : setVal m k v = m ++ [(k, v)] := by
  induction m with
  | nil => rfl
  | cons q m' ih =>
    have hq : q.1 ≠ k := not_contains_key_ne k (q :: m') hc q (List.mem_cons_self ..)
    have hc' : containsKey k m' = false := by
      cases h : containsKey k m' with
      | false => rfl
      | true =>
        have := (contains_iff_mem_keys k (q :: m')).mpr
          (by
            rw [List.map_cons]
            exact List.mem_cons_of_mem _ ((contains_iff_mem_keys k m').mp h))
        rw [hc] at this
        exact Bool.noConfusion this
    simp only [setVal, hq, if_false]
    rw [ih hc']
    rfl

theorem keys_setVal_of_contains (m : List (String × α)) (k : String) (v : α)
    (hc : containsKey k m = true) :
    (setVal m k v).map Prod.fst = m.map Prod.fst := by
  induction m with
  | nil => exact Bool.noConfusion hc
  | cons q m' ih =>
    by_cases hq : q.1 = k
    · simp only [setVal, hq, if_true, List.map_cons]
    · have hc' : containsKey k m' = true := by
        simp only [containsKey, List.any_cons, Bool.or_eq_true,
          decide_eq_true_eq] at hc
        rcases hc with h | h
        · exact absurd h hq
        · simpa [containsKey] using h
      simp only [setVal, hq, if_false, List.map_cons, ih hc']

theorem nodup_keys_setVal (m : List (String × α)) (k : String) (v : α)
    (hnd : (m.map Prod.fst).Nodup) : ((setVal m k v).map Prod.fst).Nodup := by
  cases hc : containsKey k m with
  | true => rw [keys_setVal_of_contains m k v hc]; exact hnd
  | false =>
    rw [setVal_eq_append_of_not_contains m k v hc, List.map_append]
    rw [List.nodup_append]
    refine ⟨hnd, by simp, ?_⟩
    intro q hq hq'
    simp only [List.map_cons, List.map_nil, List.mem_singleton] at hq'
    rw [List.mem_map] at hq
    obtain ⟨p, hp, hpq⟩ := hq
    exact not_contains_key_ne k m hc p hp (hpq.trans hq')

theorem setVal_map_override (A' : List (String × α)) (k : String) (v : α)
    (m : List (String × α)) (hnd : (m.map Prod.fst).Nodup)
    (hc : containsKey k m = true) :
    (setVal m k v).map (overrideWith A') = m.map (overrideWith ((k, v) :: A')) := by
  induction m with
  | nil => exact Bool.noConfusion hc
  | cons q m' ih =>
    rw [List.map_cons] at hnd
    have hnd' : (m'.map Prod.fst).Nodup := hnd.of_cons
    by_cases hq : q.1 = k
    · simp only [setVal, hq, if_true, List.map_cons]
      congr 1
      · show (k, (lastAssign k A').getD v) = overrideWith ((k, v) :: A') q
        rw [overrideWith, hq, lastAssign_cons]
        cases lastAssign k A' with
        | some w => rfl
        | none => simp
      · apply List.map_congr_left
        intro p hp
        rw [overrideWith, overrideWith, lastAssign_cons_ne]
        intro hkp
        have : k ∈ m'.map Prod.fst := List.mem_map.mpr ⟨p, hp, hkp.symm⟩
        rw [← hq] at this
        exact (List.nodup_cons.mp hnd).1 this
    · have hc' : containsKey k m' = true := by
        simp only [containsKey, List.any_cons, Bool.or_eq_true,
          decide_eq_true_eq] at hc
        rcases hc with h | h
        · exact absurd h hq
        · simpa [containsKey] using h
      simp only [setVal, hq, if_false, List.map_cons]
      congr 1
      · rw [overrideWith, overrideWith, lastAssign_cons_ne _ _ _ _
          (fun h => hq h.symm)]
      · exact ih hnd' hc'

theorem newPart_subset_nil (A : List (String × α)) (ks : List String)
    (h : ∀ p ∈ A, p.1 ∈ ks) : newPart A ks = [] := by
  induction A generalizing ks with
  | nil => rfl
  | cons kv rest ih =>
    obtain ⟨k, v⟩ := kv
    rw [newPart, if_pos (h (k, v) (List.mem_cons_self ..))]
    exact ih ks (fun p hp => h p (List.mem_cons_of_mem _ hp))

theorem mem_newPart (A : List (String × α)) (ks : List String) (p : String × α)
    (hp : p ∈ newPart A ks) : lastAssign p.1 A = some p.2 ∧ p.1 ∉ ks := by
  induction A generalizing ks with
  | nil => simp [newPart] at hp
  | cons kv rest ih =>
    obtain ⟨k, v⟩ := kv
    rw [newPart] at hp
    split at hp
    · rename_i hk
      obtain ⟨hla, hnk⟩ := ih ks hp
      refine ⟨?_, hnk⟩
      rw [lastAssign_cons, hla]
    · rename_i hk
      rcases List.mem_cons.mp hp with h | h
      · subst h
        refine ⟨?_, hk⟩
        rw [lastAssign_cons]
        cases lastAssign k rest with
        | some w => rfl
        | none => simp
      · obtain ⟨hla, hnk⟩ := ih (ks ++ [k]) h
        have hpk : p.1 ≠ k := by
          intro he
          exact hnk (by rw [he]; exact List.mem_append_right _ (List.mem_singleton.mpr rfl))
        refine ⟨?_, fun hin => hnk (List.mem_append_left _ hin)⟩
        rw [lastAssign_cons_ne _ _ _ _ (fun h' => hpk h'.symm)]
        exact hla

theorem newPart_keys_fresh (A : List (String × α)) (ks : List String) :
    ((newPart A ks).map Prod.fst).Nodup
    ∧ ∀ k ∈ (newPart A ks).map Prod.fst, k ∉ ks := by
  induction A generalizing ks with
  | nil => exact ⟨List.nodup_nil, by simp [newPart]⟩
  | cons kv rest ih =>
    obtain ⟨k, v⟩ := kv
    rw [newPart]
    split
    · exact ih ks
    · rename_i hk
      obtain ⟨ihn, ihf⟩ := ih (ks ++ [k])
      rw [List.map_cons]
      constructor
      · rw [List.nodup_cons]
        refine ⟨?_, ihn⟩
        intro hkin
        exact ihf k hkin (List.mem_append_right _ (List.mem_singleton.mpr rfl))
      · intro q hq
        rcases List.mem_cons.mp hq with h | h
        · subst h; exact hk
        · exact fun hin => ihf q h (List.mem_append_left _ hin)

theorem keys_covered (A : List (String × α)) (ks : List String) :
    ∀ p ∈ A, p.1 ∈ ks ∨ p.1 ∈ (newPart A ks).map Prod.fst := by
  induction A generalizing ks with
  | nil => simp
  | cons kv rest ih =>
    obtain ⟨k, v⟩ := kv
    intro p hp
    rw [newPart]
    rcases List.mem_cons.mp hp with h | h
    · subst h
      by_cases hk : (k : String) ∈ ks
      · exact Or.inl hk
      · rw [if_neg hk, List.map_cons]
        exact Or.inr (List.mem_cons_self ..)
    · by_cases hk : (k : String) ∈ ks
      · rw [if_pos hk]
        exact ih ks p h
      · rw [if_neg hk, List.map_cons]
        rcases ih (ks ++ [k]) p h with h' | h'
        · rcases List.mem_append.mp h' with h'' | h''
          · exact Or.inl h''
          · exact Or.inr (List.mem_cons.mpr (Or.inl (List.mem_singleton.mp h'')))
        · exact Or.inr (List.mem_cons_of_mem _ h')

/-- Structural characterisation of a run of assignments: existing
entries keep their place with the last assigned value, and new keys are
appended at their first assignment with their last assigned value. -/
theorem applyAssigns_char (A : List (String × α)) :
    ∀ m : List (String × α), (m.map Prod.fst).Nodup →
      applyAssigns m A = m.map (overrideWith A) ++ newPart A (m.map Prod.fst) := by
  induction A with
  | nil =>
    intro m _
    simp only [applyAssigns, List.foldl_nil, newPart, List.append_nil]
    conv_lhs => rw [← List.map_id m]
    apply List.map_congr_left
    intro p _
    rw [overrideWith]
    rfl
  | cons kv A' ih =>
    obtain ⟨k, v⟩ := kv
    intro m hnd
    rw [applyAssigns_cons, ih (setVal m k v) (nodup_keys_setVal m k v hnd)]
    cases hc : containsKey k m with
    | true =>
      rw [keys_setVal_of_contains m k v hc, setVal_map_override A' k v m hnd hc,
        newPart, if_pos ((contains_iff_mem_keys k m).mp hc)]
    | false =>
      rw [setVal_eq_append_of_not_contains m k v hc, List.map_append,
        List.map_append, newPart,
        if_neg (fun hin => by
          rw [(contains_iff_mem_keys k m).mpr hin] at hc
          exact Bool.noConfusion hc)]
      have hcong : m.map (overrideWith A') = m.map (overrideWith ((k, v) :: A')) := by
        apply List.map_congr_left
        intro p hp
        rw [overrideWith, overrideWith, lastAssign_cons_ne _ _ _ _
          (fun h => not_contains_key_ne k m hc p hp h.symm)]
      rw [hcong, List.append_assoc]
      congr 1

theorem keys_applyAssigns (A m : List (String × α))
    (hnd : (m.map Prod.fst).Nodup) :
    (applyAssigns m A).map Prod.fst =
      m.map Prod.fst ++ (newPart A (m.map Prod.fst)).map Prod.fst := by
  rw [applyAssigns_char A m hnd, List.map_append, List.map_map]
  congr 1

theorem nodup_keys_applyAssigns (A m : List (String × α))
    (hnd : (m.map Prod.fst).Nodup) :
    ((applyAssigns m A).map Prod.fst).Nodup := by
  rw [keys_applyAssigns A m hnd, List.nodup_append]
  obtain ⟨hn, hf⟩ := newPart_keys_fresh A (m.map Prod.fst)
  exact ⟨hnd, hn, fun q hq hq' => hf q hq' hq⟩

/-- Replaying the same run of assignments on its own result changes
nothing. -/
theorem applyAssigns_replay (A m : List (String × α))
    (hnd : (m.map Prod.fst).Nodup) :
    applyAssigns (applyAssigns m A) A = applyAssigns m A := by
  have hndM := nodup_keys_applyAssigns A m hnd
  rw [applyAssigns_char A (applyAssigns m A) hndM]
  have hcover : ∀ p ∈ A, p.1 ∈ (applyAssigns m A).map Prod.fst := by
    intro p hp
    rw [keys_applyAssigns A m hnd]
    rcases keys_covered A (m.map Prod.fst) p hp with h | h
    · exact List.mem_append_left _ h
    · exact List.mem_append_right _ h
  rw [newPart_subset_nil A _ hcover, List.append_nil]
  conv_rhs => rw [← List.map_id (applyAssigns m A)]
  apply List.map_congr_left
  intro p hp
  rw [applyAssigns_char A m hnd] at hp
  rcases List.mem_append.mp hp with h | h
  · rw [List.mem_map] at h
    obtain ⟨q, hq, rfl⟩ := h
    rw [overrideWith, overrideWith]
    show (q.1, (lastAssign q.1 A).getD ((lastAssign q.1 A).getD q.2)) = _
    cases lastAssign q.1 A with
    | some w => rfl
    | none => rfl
  · obtain ⟨hla, -⟩ := mem_newPart A _ p h
    rw [overrideWith, hla]
    rfl

/-! ### Sanitized form of company data -/

theorem trimL_idem (l : List Char) : trimL (trimL l) = trimL l := by
  have hh : ∀ c, (trimL l).head? = some c → jsIsWs c = false := fun c hc =>
    head?_dropWhile_not jsIsWs l c (head?_dropTrailing jsIsWs _ c hc)
  have hl : ∀ c, (trimL l).getLast? = some c → jsIsWs c = false := fun c hc =>
    getLast?_dropTrailing_not jsIsWs _ c hc
  show dropTrailing jsIsWs ((trimL l).dropWhile jsIsWs) = trimL l
  rw [dropWhile_eq_self_of_head jsIsWs (trimL l) hh,
    dropTrailing_eq_self_of_getLast jsIsWs (trimL l) hl]

theorem jsTrim_idem (s : String) : jsTrim (jsTrim s) = jsTrim s := by
  show (⟨trimL (trimL s.data)⟩ : String) = ⟨trimL s.data⟩
  rw [trimL_idem]

theorem sanitizeEntry_form (p q : String × JsValue)
    (h : sanitizeEntry p = some q) : sanitizedEntry q := by
  unfold sanitizeEntry at h
  cases hk : normalizeCompanyDataKey (some p.1) with
  | none => rw [hk] at h; exact absurd h (by simp)
  | some ck =>
    rw [hk] at h
    cases hv : p.2 with
    | jnull => rw [hv] at h; exact absurd h (by simp)
    | num n =>
      rw [hv] at h
      obtain rfl := Option.some.inj h
      exact ⟨normalizeCompanyDataKey_canonical _ _ hk, trivial⟩
    | str s =>
      rw [hv] at h
      by_cases he : jsTrim s = ""
      · simp [he] at h
      · simp only [he, if_false] at h
        obtain rfl := Option.some.inj h
        exact ⟨normalizeCompanyDataKey_canonical _ _ hk, jsTrim_idem s, he⟩

theorem itemContribution_form (item : ParsedField) (q : String × JsValue)
    (h : itemContribution item = some q) : sanitizedEntry q := by
  unfold itemContribution at h
  split at h
  · exact absurd h (by simp)
  · rename_i rawValue hv
    have hidem : jsTrim rawValue = rawValue := by
      cases hiv : item.value with
      | none => rw [hiv] at hv; exact absurd hv (by simp)
      | some s0 =>
        rw [hiv] at hv
        have hs0 : jsTrim s0 = rawValue := by simpa using hv
        rw [← hs0]
        exact jsTrim_idem s0
    split at h
    · exact absurd h (by simp)
    · rename_i he
      split at h
      · split at h
        · exact absurd h (by simp)
        · rename_i canonicalKey hck
          obtain rfl := Option.some.inj h
          have hcanon : normalizeCompanyDataKey (some canonicalKey) =
              some canonicalKey := by
            cases hkk : normalizeCompanyDataKey item.key with
            | some k =>
              rw [hkk] at hck
              obtain rfl := Option.some.inj hck
              cases hik : item.key with
              | none =>
                rw [hik] at hkk
                exact absurd hkk (by simp [normalizeCompanyDataKey])
              | some ks =>
                rw [hik] at hkk
                exact normalizeCompanyDataKey_canonical ks _ hkk
            | none =>
              rw [hkk] at hck
              exact normalizeCompanyDataKey_canonical item.label _ hck
          exact ⟨hcanon, hidem, he⟩
      · exact absurd h (by simp)

theorem mem_setVal (m : List (String × α)) (k : String) (v : α) (p : String × α)
    (hp : p ∈ setVal m k v) : p = (k, v) ∨ p ∈ m := by
  induction m with
  | nil => simpa [setVal] using hp
  | cons q m' ih =>
    simp only [setVal] at hp
    split at hp
    · rcases List.mem_cons.mp hp with h | h
      · exact Or.inl h
      · exact Or.inr (List.mem_cons_of_mem q h)
    · rcases List.mem_cons.mp hp with h | h
      · exact Or.inr (h ▸ List.mem_cons_self ..)
      · rcases ih h with h' | h'
        · exact Or.inl h'
        · exact Or.inr (List.mem_cons_of_mem q h')

theorem applyAssigns_preserves_form (A : List (String × JsValue)) :
    ∀ m : List (String × JsValue), (∀ p ∈ A, sanitizedEntry p) →
      (∀ p ∈ m, sanitizedEntry p) → ∀ p ∈ applyAssigns m A, sanitizedEntry p := by
  induction A with
  | nil => intro m _ hm; exact hm
  | cons a A' ih =>
    intro m hA hm
    rw [applyAssigns_cons]
    refine ih (setVal m a.1 a.2) (fun p hp => hA p (List.mem_cons_of_mem a hp)) ?_
    intro p hp
    rcases mem_setVal m a.1 a.2 p hp with h | h
    · rw [h]
      exact hA a (List.mem_cons_self ..)
    · exact hm p h

theorem filterMap_eq_self_of (f : β → Option β) (l : List β)
    (h : ∀ x ∈ l, f x = some x) : l.filterMap f = l := by
  induction l with
  | nil => rfl
  | cons x xs ih =>
    rw [List.filterMap_cons, h x (List.mem_cons_self ..),
      ih (fun y hy => h y (List.mem_cons_of_mem x hy))]

theorem sanitizeEntry_of_form (p : String × JsValue) (hp : sanitizedEntry p) :
    sanitizeEntry p = some p := by
  obtain ⟨hk, hv⟩ := hp
  unfold sanitizeEntry
  rw [hk]
  cases hpv : p.2 with
  | jnull => rw [hpv] at hv; exact hv.elim
  | num n =>
    show some (p.1, JsValue.num n) = some p
    rw [← hpv]
  | str s =>
    rw [hpv] at hv
    obtain ⟨ht, hne⟩ := hv
    show (if jsTrim s = "" then none else some (p.1, JsValue.str (jsTrim s))) = some p
    rw [ht, if_neg hne, ← hpv]

theorem sanitize_output_form (data : List (String × JsValue)) :
    ∀ p ∈ sanitizeCompanyData data, sanitizedEntry p := by
  rw [sanitizeCompanyData_eq_applyAssigns]
  refine applyAssigns_preserves_form _ [] ?_ (by simp)
  intro p hp
  rw [List.mem_filterMap] at hp
  obtain ⟨x, -, hx⟩ := hp
  exact sanitizeEntry_form x p hx

theorem sanitize_nodup (data : List (String × JsValue)) :
    ((sanitizeCompanyData data).map Prod.fst).Nodup := by
  rw [sanitizeCompanyData_eq_applyAssigns]
  exact nodup_keys_applyAssigns _ [] (by simp)

theorem containsKey_append (k : String) (m₁ m₂ : List (String × α)) :
    containsKey k (m₁ ++ m₂) = (containsKey k m₁ || containsKey k m₂) := by
  simp [containsKey, List.any_append]

theorem applyAssigns_fresh (m : List (String × α)) :
    ∀ acc : List (String × α), (∀ p ∈ m, containsKey p.1 acc = false) →
      (m.map Prod.fst).Nodup → applyAssigns acc m = acc ++ m := by
  induction m with
  | nil => intro acc _ _; exact (List.append_nil acc).symm
  | cons a m' ih =>
    intro acc hfresh hnd
    rw [applyAssigns_cons,
      setVal_eq_append_of_not_contains acc a.1 a.2
        (hfresh a (List.mem_cons_self ..))]
    have : acc ++ [(a.1, a.2)] ++ m' = acc ++ (a :: m') := by
      rw [List.append_assoc]
      rfl
    rw [← this]
    refine ih (acc ++ [(a.1, a.2)]) ?_ (by rw [List.map_cons] at hnd; exact hnd.of_cons)
    intro p hp
    rw [containsKey_append]
    have h1 : containsKey p.1 acc = false := hfresh p (List.mem_cons_of_mem a hp)
    have h2 : containsKey p.1 [(a.1, a.2)] = false := by
      simp only [containsKey, List.any_cons, List.any_nil, Bool.or_false]
      rw [decide_eq_false]
      intro he
      rw [List.map_cons] at hnd
      exact (List.nodup_cons.mp hnd).1 (List.mem_map.mpr ⟨p, hp, he.symm⟩)
    rw [h1, h2]
    rfl

theorem sanitize_fixpoint (m : List (String × JsValue))
    (hm : ∀ p ∈ m, sanitizedEntry p) (hnd : (m.map Prod.fst).Nodup) :
    sanitizeCompanyData m = m := by
  rw [sanitizeCompanyData_eq_applyAssigns,
    filterMap_eq_self_of _ _ (fun p hp => sanitizeEntry_of_form p (hm p hp))]
  have := applyAssigns_fresh m [] (fun p _ => rfl) hnd
  rwa [List.nil_append] at this

theorem docContributions_form (documents : List (Option (List ParsedField))) :
    ∀ p ∈ docContributions documents, sanitizedEntry p := by
  intro p hp
  rw [docContributions, List.mem_flatten] at hp
  obtain ⟨l, hl, hpl⟩ := hp
  rw [List.mem_map] at hl
  obtain ⟨docData, -, rfl⟩ := hl
  rw [List.mem_filterMap] at hpl
  obtain ⟨item, -, hitem⟩ := hpl
  exact itemContribution_form item p hitem

/-- Claim C3: the company-data merge is idempotent.  Aggregating, storing
the result through `internalUpdateCompanyData`, and aggregating again
over the same documents returns exactly the same map. -/
theorem claim_C3_aggregate_idempotent (companyData : List (String × JsValue))
    (documents : List (Option (List ParsedField))) :
    internalAggregateCompanyDataFromDocuments
        (internalUpdateCompanyData
          (internalAggregateCompanyDataFromDocuments companyData documents))
        documents
      = internalAggregateCompanyDataFromDocuments companyData documents := by
  have hform : ∀ p ∈ internalAggregateCompanyDataFromDocuments companyData documents,
      sanitizedEntry p := by
    rw [internalAggregate_eq_applyAssigns]
    exact applyAssigns_preserves_form _ _ (docContributions_form documents)
      (sanitize_output_form companyData)
  have hnd : ((internalAggregateCompanyDataFromDocuments companyData documents).map
      Prod.fst).Nodup := by
    rw [internalAggregate_eq_applyAssigns]
    exact nodup_keys_applyAssigns _ _ (sanitize_nodup companyData)
  rw [internalUpdateCompanyData, sanitize_fixpoint _ hform hnd]
  conv_lhs => rw [internalAggregate_eq_applyAssigns, sanitize_fixpoint _ hform hnd,
    internalAggregate_eq_applyAssigns]
  conv_rhs => rw [internalAggregate_eq_applyAssigns]
  exact applyAssigns_replay _ _ (sanitize_nodup companyData)

/-! ### The document-data merge -/

theorem lastAssign_isSome_iff (k : String) (A : List (String × α)) :
    (lastAssign k A).isSome = true ↔ ∃ p ∈ A, p.1 = k := by
  induction A with
  | nil => simp [lastAssign]
  | cons a A' ih =>
    obtain ⟨k', v⟩ := a
    rw [lastAssign_cons]
    constructor
    · intro h
      cases hla : lastAssign k A' with
      | some w =>
        obtain ⟨p, hp, hpk⟩ := ih.mp (by rw [hla]; rfl)
        exact ⟨p, List.mem_cons_of_mem _ hp, hpk⟩
      | none =>
        rw [hla] at h
        by_cases hk : k' = k
        · exact ⟨(k', v), List.mem_cons_self .., hk⟩
        · rw [if_neg hk] at h
          exact absurd h (by simp)
    · rintro ⟨p, hp, hpk⟩
      cases hla : lastAssign k A' with
      | some w => rfl
      | none =>
        show (if k' = k then some v else none).isSome = true
        rcases List.mem_cons.mp hp with h | h
        · rw [if_pos (((congrArg Prod.fst h).symm).trans hpk)]
          rfl
        · exfalso
          have := ih.mpr ⟨p, h, hpk⟩
          rw [hla] at this
          exact Bool.noConfusion this

theorem lastAssign_mem (k : String) (A : List (String × α)) (v : α)
    (h : lastAssign k A = some v) : (k, v) ∈ A := by
  induction A with
  | nil => exact absurd h (by simp [lastAssign])
  | cons a A' ih =>
    obtain ⟨k', w⟩ := a
    rw [lastAssign_cons] at h
    cases hla : lastAssign k A' with
    | some w' =>
      rw [hla] at h
      obtain rfl := Option.some.inj h
      exact List.mem_cons_of_mem _ (ih hla)
    | none =>
      rw [hla] at h
      by_cases hk : k' = k
      · rw [if_pos hk] at h
        obtain rfl := Option.some.inj h
        rw [← hk]
        exact List.mem_cons_self ..
      · rw [if_neg hk] at h
        exact absurd h (by simp)

theorem lastAssign_byLabel_label (nd : List ParsedField) (k : String) (u : ParsedField)
    (h : lastAssign k (nd.map (fun it => (it.label, it))) = some u) : u.label = k := by
  have hm := lastAssign_mem _ _ _ h
  rw [List.mem_map] at hm
  obtain ⟨it, -, heq⟩ := hm
  obtain ⟨h1, h2⟩ := Prod.mk.injEq .. ▸ heq
  rw [← h2, h1]

theorem appendNewItems_congr (nd : List ParsedField) :
    ∀ S₁ S₂ : List String, (∀ it ∈ nd, (it.label ∈ S₁ ↔ it.label ∈ S₂)) →
      appendNewItems S₁ nd = appendNewItems S₂ nd := by
  induction nd with
  | nil => intro _ _ _; rfl
  | cons it rest ih =>
    intro S₁ S₂ h
    by_cases h1 : it.label ∈ S₁
    · rw [appendNewItems, if_pos h1, appendNewItems,
        if_pos ((h it (List.mem_cons_self ..)).mp h1)]
      exact ih S₁ S₂ (fun x hx => h x (List.mem_cons_of_mem _ hx))
    · rw [appendNewItems, if_neg h1, appendNewItems,
        if_neg (fun h2 => h1 ((h it (List.mem_cons_self ..)).mpr h2))]
      congr 1
      refine ih _ _ (fun x hx => ?_)
      rw [List.mem_cons, List.mem_cons]
      have := h x (List.mem_cons_of_mem _ hx)
      constructor
      · rintro (he | hm)
        · exact Or.inl he
        · exact Or.inr (this.mp hm)
      · rintro (he | hm)
        · exact Or.inl he
        · exact Or.inr (this.mpr hm)

theorem appendNewItems_fresh (nd : List ParsedField) :
    ∀ S : List String, ((appendNewItems S nd).map (fun it => it.label)).Nodup
      ∧ ∀ l ∈ (appendNewItems S nd).map (fun it => it.label), l ∉ S := by
  induction nd with
  | nil => intro S; exact ⟨List.nodup_nil, by simp [appendNewItems]⟩
  | cons it rest ih =>
    intro S
    rw [appendNewItems]
    split
    · exact ih S
    · rename_i hit
      obtain ⟨ihn, ihf⟩ := ih (it.label :: S)
      rw [List.map_cons]
      constructor
      · rw [List.nodup_cons]
        exact ⟨fun hin => ihf it.label hin (List.mem_cons_self ..), ihn⟩
      · intro l hl
        rcases List.mem_cons.mp hl with h | h
        · subst h; exact hit
        · exact fun hin => ihf l h (List.mem_cons_of_mem _ hin)

/-- Counterexample to claim C9 as stated: when the stored data already
holds the same label twice, both copies are replaced and the label
occurs twice in the merged result. -/
theorem claim_C9_merge_counterexample :
    ¬ (((updateDocumentData
        [{ label := "A", description := "d1", value := some "1" },
         { label := "A", description := "d2", value := some "2" }]
        (some [{ label := "A", description := "d3", value := some "3" }])).map
          (fun it => it.label)).Nodup) := by
  decide

/-- Claim C9 (amended): absent or empty update data leaves the stored
array unchanged; for a non-empty update, each stored entry keeps its
position, replaced by the last update entry bearing its label when one
exists; the first update entry of each label not occurring in the stored
data is appended, in update order; and — provided the stored labels are
pairwise distinct — no label occurs twice in the result. -/
theorem claim_C9_merge_characterization (existingData newData : List ParsedField) :
    (updateDocumentData existingData none = existingData
      ∧ updateDocumentData existingData (some []) = existingData)
    ∧ (newData ≠ [] →
        (existingData.map (fun it => it.label)).Nodup →
        (updateDocumentData existingData (some newData)).take existingData.length =
            existingData.map (fun item =>
              match lastAssign item.label (newData.map (fun it => (it.label, it))) with
              | some updatedItem => updatedItem
              | none => item)
          ∧ (updateDocumentData existingData (some newData)).drop existingData.length =
              appendNewItems (existingData.map (fun it => it.label)) newData
          ∧ (((updateDocumentData existingData (some newData)).map
              (fun it => it.label)).Nodup)) := by
  refine ⟨⟨rfl, rfl⟩, fun hne hnd => ?_⟩
  have hupd : updateDocumentData existingData (some newData) =
      mergeDocumentData existingData newData := by
    rw [updateDocumentData, if_neg hne]
  have hlabels : ∀ it ∈ newData,
      (it.label ∈ existingData.filterMap (fun item =>
        if (lastAssign item.label (newData.map (fun i => (i.label, i)))).isSome
        then some item.label else none)
      ↔ it.label ∈ existingData.map (fun i => i.label)) := by
    intro it hit
    constructor
    · intro h
      rw [List.mem_filterMap] at h
      obtain ⟨e, he, heq⟩ := h
      split at heq
      · exact List.mem_map.mpr ⟨e, he, Option.some.inj heq⟩
      · exact absurd heq (by simp)
    · intro h
      rw [List.mem_map] at h
      obtain ⟨e, he, heq⟩ := h
      rw [List.mem_filterMap]
      refine ⟨e, he, ?_⟩
      rw [if_pos, heq]
      rw [lastAssign_isSome_iff]
      exact ⟨(it.label, it), List.mem_map.mpr ⟨it, hit, rfl⟩, heq.symm⟩
  have happ : appendNewItems
      (existingData.filterMap (fun item =>
        if (lastAssign item.label (newData.map (fun i => (i.label, i)))).isSome
        then some item.label else none)) newData =
      appendNewItems (existingData.map (fun i => i.label)) newData :=
    appendNewItems_congr newData _ _ hlabels
  have hmergedlen : (existingData.map (fun item =>
      match lastAssign item.label (newData.map (fun it => (it.label, it))) with
      | some updatedItem => updatedItem
      | none => item)).length = existingData.length := List.length_map ..
  refine ⟨?_, ?_, ?_⟩
  · rw [hupd, mergeDocumentData, List.take_left' hmergedlen]
  · rw [hupd, mergeDocumentData, List.drop_left' hmergedlen, happ]
  · rw [hupd, mergeDocumentData, List.map_append, List.nodup_append]
    have hmerged_labels : (existingData.map (fun item =>
        match lastAssign item.label (newData.map (fun it => (it.label, it))) with
        | some updatedItem => updatedItem
        | none => item)).map (fun it => it.label) =
        existingData.map (fun it => it.label) := by
      rw [List.map_map]
      apply List.map_congr_left
      intro item _
      show (fun it => it.label) (match lastAssign item.label
        (newData.map (fun it => (it.label, it))) with
        | some updatedItem => updatedItem
        | none => item) = item.label
      cases hla : lastAssign item.label (newData.map (fun it => (it.label, it))) with
      | some u => exact lastAssign_byLabel_label newData item.label u hla
      | none => rfl
    rw [hmerged_labels, happ]
    obtain ⟨hfn, hff⟩ := appendNewItems_fresh newData (existingData.map (fun i => i.label))
    exact ⟨hnd, hfn, fun l hl hl' =>
      hff l (List.mem_map.mpr (by
        rw [List.mem_map] at hl'
        obtain ⟨x, hx, hxl⟩ := hl'
        exact ⟨x, hx, hxl⟩)) hl⟩

/-- Witness for the amended C9 on a two-entry document and a two-entry
update that replaces one label and introduces a fresh one. -/
theorem claim_C9_merge_characterization_witness :
    (updateDocumentData
        [{ label := "A", description := "da", value := some "1" },
         { label := "B", description := "db", value := some "2" }]
        (some [{ label := "B", description := "db2", value := some "9" },
               { label := "C", description := "dc", value := some "7" }])).take 2 =
      [{ label := "A", description := "da", value := some "1" },
       { label := "B", description := "db2", value := some "9" }]
    ∧ (updateDocumentData
        [{ label := "A", description := "da", value := some "1" },
         { label := "B", description := "db", value := some "2" }]
        (some [{ label := "B", description := "db2", value := some "9" },
               { label := "C", description := "dc", value := some "7" }])).drop 2 =
      [{ label := "C", description := "dc", value := some "7" }]
    ∧ (((updateDocumentData
        [{ label := "A", description := "da", value := some "1" },
         { label := "B", description := "db", value := some "2" }]
        (some [{ label := "B", description := "db2", value := some "9" },
               { label := "C", description := "dc", value := some "7" }])).map
          (fun it => it.label)).Nodup) := by
  have h := (claim_C9_merge_characterization
    [{ label := "A", description := "da", value := some "1" },
     { label := "B", description := "db", value := some "2" }]
    [{ label := "B", description := "db2", value := some "9" },
     { label := "C", description := "dc", value := some "7" }]).2
    (by decide) (by decide)
  refine ⟨?_, ?_, h.2.2⟩
  · exact h.1.trans (by decide)
  · exact h.2.1.trans (by decide)

/-! ### Auto-fill from company data -/

theorem filledCheck_iff (v : Option String) :
    filledCheck v = true ↔ jsTrim (v.getD "") ≠ "" := by
  cases v with
  | none =>
    simp only [filledCheck, Option.getD_none]
    decide
  | some s =>
    simp only [Option.getD_some]
    by_cases h1 : s = ""
    · subst h1
      simp only [filledCheck, if_pos rfl]
      decide
    · by_cases h2 : jsTrim s = ""
      · simp [filledCheck, h1, h2]
      · simp [filledCheck, h1, h2]

theorem string_append_ne_empty (a b : String) (hb : b.data ≠ []) : a ++ b ≠ "" := by
  intro he
  have hd : (a ++ b).data = [] := by rw [he]
  rw [show (a ++ b).data = a.data ++ b.data from rfl] at hd
  exact hb (List.append_eq_nil.mp hd).2

theorem annotate_idem (d : String) :
    annotateDescriptionWithAutoFilled (annotateDescriptionWithAutoFilled d) =
      annotateDescriptionWithAutoFilled d := by
  by_cases h1 : d = ""
  · subst h1
    decide
  · by_cases h2 : jsIncludes (jsLower d) "auto-filled from company data" = true
    · have hd : annotateDescriptionWithAutoFilled d = d := by
        rw [annotateDescriptionWithAutoFilled, if_neg h1, if_pos h2]
      rw [hd]
      exact hd
    · have hd : annotateDescriptionWithAutoFilled d =
          d ++ " (Auto-filled from company data)" := by
        rw [annotateDescriptionWithAutoFilled, if_neg h1, if_neg h2]
      rw [hd]
      have hne : d ++ " (Auto-filled from company data)" ≠ "" :=
        string_append_ne_empty d _ (by decide)
      have hinc : jsIncludes (jsLower (d ++ " (Auto-filled from company data)"))
          "auto-filled from company data" = true := by
        apply (jsIncludes_iff _ _).mpr
        have hsplit : (jsLower (d ++ " (Auto-filled from company data)")).data =
            (jsLower d).data ++ (jsLower " (Auto-filled from company data)").data := by
          show (d.data ++ (" (Auto-filled from company data)").data).map jsLowerChar = _
          rw [List.map_append]
          rfl
        rw [hsplit]
        have hsub : ("auto-filled from company data").data <:+:
            (jsLower " (Auto-filled from company data)").data := by decide
        exact hsub.trans (List.suffix_append _ _).isInfix
      rw [annotateDescriptionWithAutoFilled, if_neg hne, if_pos hinc]

/-- Claim C10: `autoFillFieldsFromCompanyData` never overwrites a filled
field; a blank field is filled with the first company value found by its
normalized key, label, then description, changing only its `value` and
its `description` (annotated with the auto-filled marker, added at most
once — last conjunct); a blank field with no match is unchanged. -/
theorem claim_C10_autofill_frame (fields : List ParsedField)
    (companyData : List (String × JsValue)) (i : Nat) (f : ParsedField)
    (hf : fields[i]? = some f) :
    ((autoFillFieldsFromCompanyData fields companyData)[i]? =
        some (autoFillField (buildNormalizedCompanyValues companyData) f)
      ∧ (jsTrim (f.value.getD "") ≠ "" →
          autoFillField (buildNormalizedCompanyValues companyData) f = f)
      ∧ (jsTrim (f.value.getD "") = "" →
          (firstCompanyValue (buildNormalizedCompanyValues companyData)
              (candidateKeys f) = none →
            autoFillField (buildNormalizedCompanyValues companyData) f = f)
          ∧ ∀ v, firstCompanyValue (buildNormalizedCompanyValues companyData)
              (candidateKeys f) = some v →
            (autoFillField (buildNormalizedCompanyValues companyData) f).value = some v
            ∧ (autoFillField (buildNormalizedCompanyValues companyData) f).description =
                annotateDescriptionWithAutoFilled f.description
            ∧ (autoFillField (buildNormalizedCompanyValues companyData) f).label = f.label
            ∧ (autoFillField (buildNormalizedCompanyValues companyData) f).key = f.key
            ∧ (autoFillField (buildNormalizedCompanyValues companyData) f).placeholderPattern
                = f.placeholderPattern))
    ∧ (∀ d, annotateDescriptionWithAutoFilled (annotateDescriptionWithAutoFilled d) =
        annotateDescriptionWithAutoFilled d) := by
  refine ⟨⟨?_, ?_, ?_⟩, annotate_idem⟩
  · rw [autoFillFieldsFromCompanyData, List.getElem?_map, hf]
    rfl
  · intro h
    rw [autoFillField, if_pos ((filledCheck_iff f.value).mpr h)]
  · intro h
    have hfc : filledCheck f.value = false := by
      cases hb : filledCheck f.value with
      | false => rfl
      | true => exact absurd h ((filledCheck_iff f.value).mp hb)
    constructor
    · intro h0
      rw [autoFillField, if_neg (by rw [hfc]; simp), h0]
    · intro v hv
      rw [autoFillField, if_neg (by rw [hfc]; simp), hv]
      exact ⟨rfl, rfl, rfl, rfl, rfl⟩

/-- Witness for C10: a blank `Company Name` field gets filled from the
canonical `company_name` entry, with the description annotated. -/
theorem claim_C10_autofill_frame_witness :
    (autoFillFieldsFromCompanyData
        [{ label := "Company Name", description := "The name", value := some "" }]
        [("company_name", JsValue.str " Acme ")])[0]? =
      some { label := "Company Name",
             description := "The name (Auto-filled from company data)",
             value := some "Acme" } := by
  have h := claim_C10_autofill_frame
    [{ label := "Company Name", description := "The name", value := some "" }]
    [("company_name", JsValue.str " Acme ")] 0
    { label := "Company Name", description := "The name", value := some "" } rfl
  rw [h.1.1]
  decide

/-- Claim C8: the reconciliation functions are deterministic — two runs
on equal inputs give equal outputs.  In this embedding each function is
a pure function of its arguments alone, which is the shallow counterpart
of the source functions reading and writing no state outside their
arguments and return value. -/
theorem claim_C8_reconciliation_deterministic :
    (∀ (r₁ r₂ : String) (f₁ f₂ : List ParsedField), r₁ = r₂ → f₁ = f₂ →
        enrichFieldsWithDocumentContext r₁ f₁ = enrichFieldsWithDocumentContext r₂ f₂)
    ∧ (∀ (f₁ f₂ : List ParsedField) (c₁ c₂ : List (String × JsValue)),
        f₁ = f₂ → c₁ = c₂ →
        autoFillFieldsFromCompanyData f₁ c₁ = autoFillFieldsFromCompanyData f₂ c₂)
    ∧ (∀ l₁ l₂ d₁ d₂ : String, l₁ = l₂ → d₁ = d₂ →
        isCompanyLevelField l₁ d₁ = isCompanyLevelField l₂ d₂)
    ∧ (∀ s₁ s₂ : String, s₁ = s₂ →
        normalizeIdentifier s₁ = normalizeIdentifier s₂
        ∧ normalizeCompanyDataKey (some s₁) = normalizeCompanyDataKey (some s₂)) := by
  refine ⟨fun r₁ r₂ f₁ f₂ hr hf => by rw [hr, hf],
    fun f₁ f₂ c₁ c₂ hf hc => by rw [hf, hc],
    fun l₁ l₂ d₁ d₂ hl hd => by rw [hl, hd],
    fun s₁ s₂ hs => by rw [hs]; exact ⟨rfl, rfl⟩⟩

/-- Witness for C8: two runs of each function on the same concrete
input coincide. -/
theorem claim_C8_reconciliation_deterministic_witness :
    enrichFieldsWithDocumentContext "Agreement with [Company Name] signed."
        [{ label := "Company Name", description := "The name" }] =
      enrichFieldsWithDocumentContext "Agreement with [Company Name] signed."
        [{ label := "Company Name", description := "The name" }]
    ∧ autoFillFieldsFromCompanyData
        [{ label := "Company Name", description := "The name", value := some "" }]
        [("company_name", JsValue.str "Acme")] =
      autoFillFieldsFromCompanyData
        [{ label := "Company Name", description := "The name", value := some "" }]
        [("company_name", JsValue.str "Acme")]
    ∧ isCompanyLevelField "Company Name" "The name" =
        isCompanyLevelField "Company Name" "The name"
    ∧ normalizeIdentifier "Company Name" = normalizeIdentifier "Company Name"
    ∧ normalizeCompanyDataKey (some "Company Name") =
        normalizeCompanyDataKey (some "Company Name") := by
  refine ⟨claim_C8_reconciliation_deterministic.1 _ _ _ _ rfl rfl,
    claim_C8_reconciliation_deterministic.2.1 _ _ _ _ rfl rfl,
    claim_C8_reconciliation_deterministic.2.2.1 _ _ _ _ rfl rfl,
    (claim_C8_reconciliation_deterministic.2.2.2 _ _ rfl).1,
    (claim_C8_reconciliation_deterministic.2.2.2 _ _ rfl).2⟩

/-- Claim C2 is violated by the code on the initial-response path: when
`generateObject` throws, the document does end in status `error` with a
user-facing message (first conjunct, as the claim states); but when the
extraction succeeds and `generateText` throws, the catch records the
`errorMessage` and writes status `error` without returning, and the
unconditional final update then overwrites the status with `review`, so
the action completes with status `review`, not `error`. -/
theorem claim_C2_error_status_bug :
    ((extractFieldsFromDocument {} "raw text" "thread"
        GenObjectOutcome.throws none GenTextOutcome.ok).status = some DocStatus.error
      ∧ (extractFieldsFromDocument {} "raw text" "thread"
        GenObjectOutcome.throws none GenTextOutcome.ok).errorMessage =
          some "Failed to parse document, please try again.")
    ∧ ((extractFieldsFromDocument {} "raw text" "thread"
        (GenObjectOutcome.ok "Title" [] none) none GenTextOutcome.throws).errorMessage =
          some "Failed to generate initial response, please try again."
      ∧ (extractFieldsFromDocument {} "raw text" "thread"
        (GenObjectOutcome.ok "Title" [] none) none GenTextOutcome.throws).status =
          some DocStatus.review
      ∧ (extractFieldsFromDocument {} "raw text" "thread"
        (GenObjectOutcome.ok "Title" [] none) none GenTextOutcome.throws).status ≠
          some DocStatus.error) := by
  refine ⟨⟨rfl, rfl⟩, rfl, rfl, ?_⟩
  decide

end JurisFlo
